import Mathlib

/-!
Shallow embedding of the workshop-assignment core of `assign_workshops.py`
(the live code at the bottom of the file; all earlier iterations in that file
are commented out).  Python dicts are modelled as association lists with
insertion-order semantics, dict indexing as `alookup` (returning `Option` so a
`KeyError` is `none`), and the external PuLP/CBC solve as an oracle function
from the built problem to a status plus a variable valuation.  Capacities are
`Int` because the source subtracts pre-assigned seats without clamping.
-/

abbrev Student := String
abbrev Workshop := String
abbrev Day := String
abbrev Zone := String

/-- A slot key `(workshop, day, session)`, the key type of `cap_map` and
`full_map` in the source. -/
abbrev SlotKey := Workshop × Day × Nat

/-- A decision-variable key `(student, (workshop, day, session))`, the key type
of the `x` dictionary in `solve_group`. -/
abbrev Var := Student × SlotKey

/-- One row of the long-form preference table (columns used by the core:
Student, Workshop, Zone, Rank, parsed submission Date). -/
structure PrefRow where
  student : Student
  workshop : Workshop
  zone : Zone
  rank : Nat
  date : Int
deriving Repr, DecidableEq

/-- One row of the schedule table after the groupby-sum aggregation in `main`
(columns Day, Workshop Title, Session, Full_Day_Session, summed Capacity). -/
structure GrpRow where
  day : Day
  workshop : Workshop
  session : Nat
  fullDay : Bool
  capacity : Int
deriving Repr, DecidableEq

/-- An output assignment record (Student, Zone, Day, Session, Workshop Title). -/
structure Row where
  student : Student
  zone : Zone
  day : Day
  session : Nat
  workshop : Workshop
deriving Repr, DecidableEq

abbrev CapMap := List (SlotKey × Int)
abbrev FullMap := List (SlotKey × Bool)
abbrev CostMap := List ((Student × Workshop) × Nat)

/-- Association-list lookup; models Python dict indexing, with `none` playing
the role of a `KeyError`. -/
def alookup {κ ν : Type} [DecidableEq κ] : List (κ × ν) → κ → Option ν
  | [], _ => none
  | (k, v) :: rest, key => if k = key then some v else alookup rest key

/-- Association-list insert-or-overwrite; models `d[k] = v` on a Python dict
(overwrites in place, otherwise appends, preserving insertion order). -/
def dictInsert {κ ν : Type} [DecidableEq κ] (d : List (κ × ν)) (k : κ) (v : ν) :
    List (κ × ν) :=
  if (d.map Prod.fst).contains k then
    d.map (fun p => if p.1 = k then (k, v) else p)
  else d ++ [(k, v)]

/-- Keep the first occurrence of each element (the order `pandas.unique` uses). -/
def dedupFirst {α : Type} [DecidableEq α] (l : List α) : List α :=
  l.foldl (fun acc x => if x ∈ acc then acc else acc ++ [x]) []

/-- Stable insertion sort; with a total preorder `r` this has the same
semantics as Python's stable `list.sort`. -/
def sortBy {α : Type} (r : α → α → Prop) [DecidableRel r] (l : List α) :
    List α :=
  List.insertionSort r l

/-- Model of Python's `sorted(collection.unique())` / `sorted(set(...))` on
strings: distinct values in ascending order. -/
def sortedUnique (l : List String) : List String :=
  sortBy (· ≤ ·) (dedupFirst l)

/-- Option-valued left fold; a failing step models an uncaught Python
exception aborting the run. -/
def optFold {σ α : Type} (f : σ → α → Option σ) : List α → σ → Option σ
  | [], st => some st
  | a :: l, st =>
    match f st a with
    | none => none
    | some st' => optFold f l st'

/-- Option-valued map, failing if any element fails. -/
def optMap {α β : Type} (f : α → Option β) : List α → Option (List β)
  | [] => some []
  | a :: l =>
    match f a with
    | none => none
    | some b =>
      match optMap f l with
      | none => none
      | some bs => some (b :: bs)

/-- Source `build_zone_map`: `prefs.groupby('Workshop')['Zone'].first()` —
the first observed zone for each workshop. -/
def build_zone_map (prefs : List PrefRow) : List (Workshop × Zone) :=
  prefs.foldl
    (fun m r => if (alookup m r.workshop).isSome then m else m ++ [(r.workshop, r.zone)])
    []

/-- Source `build_costs`: `cost[key] = min(r.Rank, cost.get(key, r.Rank))` over
all preference rows — the minimum rank per (student, workshop). -/
def build_costs (prefs : List PrefRow) : CostMap :=
  prefs.foldl
    (fun cost r =>
      let key := (r.student, r.workshop)
      dictInsert cost key (min r.rank ((alookup cost key).getD r.rank)))
    []

/-- Source `build_student_dates`: first submission date per student. -/
def build_student_dates (prefs : List PrefRow) : List (Student × Int) :=
  prefs.foldl
    (fun m r => if (alookup m r.student).isSome then m else m ++ [(r.student, r.date)])
    []

/-- Source `cost.get((s, w), 99)` — the accessor used by the exact solver's
objective (line `cost.get((s, w), 99) * var`) and by the greedy candidate
ordering (`candidates.sort(key=lambda w: cost.get((s, w), 99))`). -/
def costGet (cost : CostMap) (s : Student) (w : Workshop) : Nat :=
  (alookup cost (s, w)).getD 99

/-- Source `cost.get((s, w), 999)` — the accessor used only inside the
zone-quota constraint construction of `solve_group`. -/
def costGet999 (cost : CostMap) (s : Student) (w : Workshop) : Nat :=
  (alookup cost (s, w)).getD 999

/-- Dict read of a capacity entry (`cap_map[(w, d, t)]`); the default is never
reached at call sites, which only consult keys present in the map. -/
def capAt (cm : CapMap) (k : SlotKey) : Int :=
  (alookup cm k).getD 0

/-- Dict read of a full-day flag (`full_map[(w, d, t)]`); call sites only
consult keys shared with `cap_map`, where the flag is present. -/
def fullGet (fm : FullMap) (k : SlotKey) : Bool :=
  (alookup fm k).getD false

/-- In-place decrement `cap_map[k] -= 1`. -/
def capDec (cm : CapMap) (k : SlotKey) : CapMap :=
  cm.map (fun p => if p.1 = k then (p.1, p.2 - 1) else p)

/-- Number of output rows occupying slot `k`. -/
def cnt (rows : List Row) (k : SlotKey) : Nat :=
  (rows.filter (fun r => (r.workshop, r.day, r.session) = k)).length

/-- Number of output rows assigning participant `p` to activity `a`. -/
def cntPA (rows : List Row) (p : Student) (a : Workshop) : Nat :=
  (rows.filter (fun r => r.student = p ∧ r.workshop = a)).length

/-- Number of output rows covering the half-day period `(day, sess)`: a row in
that very session, or a session-0 (full-day) row of the same day. -/
def coversCnt (rows : List Row) (day : Day) (sess : Nat) : Nat :=
  (rows.filter (fun r => r.day = day ∧ (r.session = sess ∨ r.session = 0))).length

/-- Greedy state: the accumulated output rows, the shared capacity table, and
this participant's `used_workshops` / `used_slots` sets from `greedy_assign`. -/
structure GState where
  rows : List Row
  cm : CapMap
  usedW : List Workshop
  usedS : List (Day × Nat)
deriving Repr, DecidableEq

/-- The candidate comprehension of `greedy_assign`:
`[w for (w, d, t) in cap_map if d == day and t == sess and cap_map[(w, d, t)] > 0
and w not in used_workshops]` (with `sess = 0` for the full-day candidates).
Note that no zone condition appears. -/
def candWs (cm : CapMap) (day : Day) (sess : Nat) (usedW : List Workshop) :
    List Workshop :=
  (cm.map Prod.fst).filterMap
    (fun k =>
      if k.2.1 = day ∧ k.2.2 = sess ∧ capAt cm k > 0 ∧ k.1 ∉ usedW then some k.1
      else none)

/-- The greedy comparison order induced by the sort key `cost.get((s, w), 99)`. -/
def costLe (cost : CostMap) (s : Student) (w1 w2 : Workshop) : Prop :=
  costGet cost s w1 ≤ costGet cost s w2

instance (cost : CostMap) (s : Student) : DecidableRel (costLe cost s) :=
  fun w1 w2 => inferInstanceAs (Decidable (costGet cost s w1 ≤ costGet cost s w2))

instance (cost : CostMap) (s : Student) : IsTotal Workshop (costLe cost s) :=
  ⟨fun w1 w2 => Nat.le_total (costGet cost s w1) (costGet cost s w2)⟩

instance (cost : CostMap) (s : Student) : IsTrans Workshop (costLe cost s) :=
  ⟨fun _ _ _ h1 h2 => Nat.le_trans h1 h2⟩

/-- One half-day iteration of the `for sess in [1, 2]` loop in `greedy_assign`:
skip if the slot is already covered, otherwise take the lowest-cost candidate,
emit its row, decrement its capacity and mark workshop and slot used. -/
def sessStep (zm : List (Workshop × Zone)) (cost : CostMap) (s : Student)
    (day : Day) (sess : Nat) (st : GState) : Option GState :=
  if (day, sess) ∈ st.usedS then some st
  else
    match sortBy (costLe cost s) (candWs st.cm day sess st.usedW) with
    | [] => some st
    | w :: _ =>
      match alookup zm w with
      | none => none
      | some z =>
        some ⟨st.rows ++ [⟨s, z, day, sess, w⟩], capDec st.cm (w, day, sess),
              st.usedW ++ [w], st.usedS ++ [(day, sess)]⟩

/-- One day of `greedy_assign` for one student: try a session-0 ("full-day")
candidate first; if one exists take the lowest-cost one and mark both half-day
slots used, otherwise run the two half-day session steps. -/
def greedyDay (zm : List (Workshop × Zone)) (cost : CostMap) (s : Student)
    (day : Day) (st : GState) : Option GState :=
  match sortBy (costLe cost s) (candWs st.cm day 0 st.usedW) with
  | w :: _ =>
    match alookup zm w with
    | none => none
    | some z =>
      some ⟨st.rows ++ [⟨s, z, day, 0, w⟩], capDec st.cm (w, day, 0),
            st.usedW ++ [w], st.usedS ++ [(day, 1), (day, 2)]⟩
  | [] =>
    match sessStep zm cost s day 1 st with
    | none => none
    | some st1 => sessStep zm cost s day 2 st1

/-- All days of `greedy_assign` for one student; `used_workshops` and
`used_slots` start empty for each student while rows and capacities are shared. -/
def greedyStudent (zm : List (Workshop × Zone)) (cost : CostMap)
    (days : List Day) (s : Student) (st : GState) : Option GState :=
  optFold (fun st' day => greedyDay zm cost s day st') days
    { st with usedW := [], usedS := [] }

/-- Source `greedy_assign(students, zone_map, cost, cap_map, full_map, days)`.
`full_map` is accepted but never read, exactly as in the source; the updated
capacity map is returned instead of being mutated in place. -/
def greedy_assign (students : List Student) (zone_map : List (Workshop × Zone))
    (cost : CostMap) (cap_map : CapMap) (full_map : FullMap) (days : List Day) :
    Option (List Row × CapMap) :=
  match optFold (fun st s => greedyStudent zone_map cost days s st) students
      ⟨[], cap_map, [], []⟩ with
  | none => none
  | some st => some (st.rows, st.cm)

/-- The decision-variable keys of the `x` dictionary in `solve_group`, in its
insertion order: `for s in students for (w, d, t) in cap_map`. -/
def varList (students : List Student) (cm : CapMap) : List Var :=
  students.flatMap (fun s => (cm.map Prod.fst).map (fun k => (s, k)))

/-- Model of the dict read `x[(s, w, d, t)]`: the variable exists iff `s` is a
cohort student and `(w, d, t)` is a capacity key; otherwise `KeyError`. -/
def xLookup (students : List Student) (cm : CapMap) (v : Var) : Option Var :=
  if v.1 ∈ students ∧ v.2 ∈ cm.map Prod.fst then some v else none

/-- The data of one zone-quota constraint group built by `solve_group` for a
(student, zone) pair: the tier buckets of variables and the wildcard allowance. -/
structure ZoneC where
  s : Student
  z : Zone
  firstH : List Var
  firstF : List Var
  secondH : List Var
  secondF : List Var
  otherH : List Var
  otherF : List Var
  allowRandom : Int
deriving Repr, DecidableEq

/-- The `half_pairs` comprehension of `solve_group`: for each non-full capacity
entry whose workshop maps to zone `z`, the pair `(w, x[(s, w, d, t)])`.  The
zone lookup `zone_map[w]` can raise, hence `Option`. -/
def halfPairsM (zm : List (Workshop × Zone)) (cm : CapMap) (fm : FullMap)
    (s : Student) (z : Zone) : Option (List (Workshop × Var)) :=
  optFold
    (fun acc e =>
      if fullGet fm e.1 then some acc
      else
        match alookup zm e.1.1 with
        | none => none
        | some zw => some (if zw = z then acc ++ [(e.1.1, (s, e.1))] else acc))
    cm []

/-- The `full_pairs` comprehension of `solve_group`: for each full-flagged
capacity entry `(w, d, t)` whose workshop maps to zone `z`, the pair
`(w, x[(s, w, d, 0)])` — note the hard-coded session index 0 in the variable
lookup, which raises when `(w, d, 0)` is not a capacity key. -/
def fullPairsM (students : List Student) (zm : List (Workshop × Zone))
    (cm : CapMap) (fm : FullMap) (s : Student) (z : Zone) :
    Option (List (Workshop × Var)) :=
  optFold
    (fun acc e =>
      if fullGet fm e.1 then
        match alookup zm e.1.1 with
        | none => none
        | some zw =>
          if zw = z then
            match xLookup students cm (s, (e.1.1, e.1.2.1, 0)) with
            | none => none
            | some xv => some (acc ++ [(e.1.1, xv)])
          else some acc
      else some acc)
    cm []

/-- Membership in the `rank1_set` of `solve_group`: a distinct first-choice
workshop title of this zone's pairs. -/
def isRank1 (cost : CostMap) (s : Student) (pairWs : List Workshop)
    (w : Workshop) : Bool :=
  decide (w ∈ pairWs) && decide (costGet999 cost s w = 1)

/-- Membership in the `rank2_set` of `solve_group`: a distinct second-choice
workshop title of this zone's pairs that is not already first-choice. -/
def isRank2 (cost : CostMap) (s : Student) (pairWs : List Workshop)
    (w : Workshop) : Bool :=
  decide (w ∈ pairWs) && decide (costGet999 cost s w = 2)
    && !isRank1 cost s pairWs w

/-- Build the zone-quota constraint group for one (student, zone) pair,
mirroring the tier bucketing and `allow_random = 1 if len(rank2_set)==0 else 0`
of `solve_group`. -/
def mkZoneC (students : List Student) (zm : List (Workshop × Zone))
    (cost : CostMap) (cm : CapMap) (fm : FullMap) (s : Student) (z : Zone) :
    Option ZoneC :=
  match halfPairsM zm cm fm s z with
  | none => none
  | some hp =>
    match fullPairsM students zm cm fm s z with
    | none => none
    | some fp =>
      let pairWs := (hp ++ fp).map Prod.fst
      some
        { s := s, z := z
          firstH := (hp.filter (fun p => isRank1 cost s pairWs p.1)).map Prod.snd
          firstF := (fp.filter (fun p => isRank1 cost s pairWs p.1)).map Prod.snd
          secondH := (hp.filter (fun p => isRank2 cost s pairWs p.1)).map Prod.snd
          secondF := (fp.filter (fun p => isRank2 cost s pairWs p.1)).map Prod.snd
          otherH := (hp.filter (fun p =>
            !isRank1 cost s pairWs p.1 && !isRank2 cost s pairWs p.1)).map Prod.snd
          otherF := (fp.filter (fun p =>
            !isRank1 cost s pairWs p.1 && !isRank2 cost s pairWs p.1)).map Prod.snd
          allowRandom := if pairWs.any (isRank2 cost s pairWs) then 0 else 1 }

/-- The `zones` list of `solve_group`: `sorted(set(zone_map.values()))`. -/
def zonesOf (zm : List (Workshop × Zone)) : List Zone :=
  sortedUnique (zm.map Prod.snd)

/-- All zone-quota constraint groups, in the source's student-major loop order. -/
def buildZoneCs (students : List Student) (zm : List (Workshop × Zone))
    (cost : CostMap) (cm : CapMap) (fm : FullMap) : Option (List ZoneC) :=
  optMap (fun p => mkZoneC students zm cost cm fm p.1 p.2)
    (students.flatMap (fun s => (zonesOf zm).map (fun z => (s, z))))

/-- The integer program handed to the external solver: cohort, residual
capacities, full-day flags, days, zone-quota constraint groups, and the linear
objective `sum(cost.get((s, w), 99) * x[(s, w, d, t)])`. -/
structure Problem where
  students : List Student
  capEntries : CapMap
  fullFM : FullMap
  days : List Day
  zoneCs : List ZoneC
  objective : (Var → Int) → Int

/-- PuLP solve statuses (`pulp.LpStatus`). -/
inductive SolverStatus where
  | optimal
  | notSolved
  | infeasible
  | unbounded
  | undefined
deriving Repr, DecidableEq

/-- The structured result of the external CBC call: a status and the variable
values the solver left behind. -/
structure SolveResult where
  status : SolverStatus
  val : Var → Int

/-- Sum of the values of a list of variables. -/
def sumV (val : Var → Int) (l : List Var) : Int :=
  (l.map val).sum

/--` fsz` of a zone group: first-choice halves plus twice first-choice fulls. -/
def fsz (val : Var → Int) (zc : ZoneC) : Int :=
  sumV val zc.firstH + 2 * sumV val zc.firstF

/-- `ssz` of a zone group. -/
def ssz (val : Var → Int) (zc : ZoneC) : Int :=
  sumV val zc.secondH + 2 * sumV val zc.secondF

/-- `osz` of a zone group. -/
def osz (val : Var → Int) (zc : ZoneC) : Int :=
  sumV val zc.otherH + 2 * sumV val zc.otherF

/-- Satisfaction of one zone-quota constraint group: `TwoPerZone`,
`UseSeconds` and `RandLimit`. -/
def zoneSat (val : Var → Int) (zc : ZoneC) : Prop :=
  fsz val zc + ssz val zc + osz val zc = 2
    ∧ ssz val zc ≥ 2 - fsz val zc
    ∧ osz val zc ≤ zc.allowRandom

instance (val : Var → Int) (zc : ZoneC) : Decidable (zoneSat val zc) := by
  unfold zoneSat; infer_instance

/-- The capacity constraints of `solve_group`: for each capacity entry, the
cohort's variables on that slot sum to at most the residual capacity. -/
def capSat (students : List Student) (cm : CapMap) (val : Var → Int) : Prop :=
  ∀ e ∈ cm, (students.map (fun s => val (s, e.1))).sum ≤ e.2

/-- The `workshops` list of `solve_group`: `sorted({w for (w, d, t) in cap_map})`. -/
def workshopsOf (cm : CapMap) : List Workshop :=
  sortedUnique (cm.map (fun e => e.1.1))

/-- The no-repeat constraints of `solve_group`: for each student and workshop
title, the variables over all that workshop's slot instances sum to at most 1. -/
def noRepeatSat (students : List Student) (cm : CapMap) (val : Var → Int) :
    Prop :=
  ∀ s ∈ students, ∀ w ∈ workshopsOf cm,
    (((cm.map Prod.fst).filter (fun k => k.1 = w)).map
      (fun k => val (s, k))).sum ≤ 1

/-- The one-slot-per-period constraints of `solve_group`: for each student, day
and half-day session index, the matching half-day variables plus the
full-flagged session-0 variables of that day sum to exactly 1. -/
def onePerSlotSat (students : List Student) (cm : CapMap) (fm : FullMap)
    (days : List Day) (val : Var → Int) : Prop :=
  ∀ s ∈ students, ∀ d ∈ days, ∀ sess ∈ ([1, 2] : List Nat),
    (((cm.map Prod.fst).filter (fun k => k.2.1 = d ∧ k.2.2 = sess)).map
        (fun k => val (s, k))).sum
      + (((cm.map Prod.fst).filter
            (fun k => k.2.1 = d ∧ k.2.2 = 0 ∧ fullGet fm k)).map
          (fun k => val (s, k))).sum = 1

/-- Binary variables: every decision variable of the problem is valued 0 or 1. -/
def binaryOn (vars : List Var) (val : Var → Int) : Prop :=
  ∀ v ∈ vars, val v = 0 ∨ val v = 1

/-- A feasible solution of the built integer program: binary values satisfying
all four constraint families.  An `Optimal` certificate from CBC guarantees
exactly this. -/
def FeasibleSolution (p : Problem) (val : Var → Int) : Prop :=
  binaryOn (varList p.students p.capEntries) val
    ∧ (∀ zc ∈ p.zoneCs, zoneSat val zc)
    ∧ capSat p.students p.capEntries val
    ∧ noRepeatSat p.students p.capEntries val
    ∧ onePerSlotSat p.students p.capEntries p.fullFM p.days val

instance (p : Problem) (val : Var → Int) : Decidable (FeasibleSolution p val) := by
  unfold FeasibleSolution binaryOn capSat noRepeatSat onePerSlotSat
  infer_instance

/-- The objective of `solve_group`:
`sum(cost.get((s, w), 99) * var for ((s, w, d, t), var) in x.items())`. -/
def objectiveOf (cost : CostMap) (students : List Student) (cm : CapMap)
    (val : Var → Int) : Int :=
  ((varList students cm).map (fun v => (costGet cost v.1 v.2.1 : Int) * val v)).sum

/-- Build the integer program of `solve_group`; `none` models a `KeyError`
raised while constructing the zone-quota constraints, which in the source
happens before `prob.solve` is ever reached. -/
def buildProblem (students : List Student) (zm : List (Workshop × Zone))
    (cost : CostMap) (cm : CapMap) (fm : FullMap) (days : List Day) :
    Option Problem :=
  match buildZoneCs students zm cost cm fm with
  | none => none
  | some zcs =>
    some
      { students := students, capEntries := cm, fullFM := fm, days := days
        zoneCs := zcs, objective := objectiveOf cost students cm }

/-- The result-extraction loop of `solve_group`: for every variable in `x`'s
insertion order whose value is 1, append its output row (looking up the
workshop's zone) and decrement that slot's capacity.  The solver status is not
consulted anywhere. -/
def extractRows (zm : List (Workshop × Zone)) (vars : List Var)
    (val : Var → Int) (cm : CapMap) : Option (List Row × CapMap) :=
  match optFold
      (fun (acc : List Row × CapMap) v =>
        if val v = 1 then
          match alookup zm v.2.1 with
          | none => none
          | some z =>
            some (acc.1 ++ [⟨v.1, z, v.2.2.1, v.2.2.2, v.2.1⟩],
                  capDec acc.2 v.2)
        else some acc)
      vars ([], cm) with
  | none => none
  | some acc => some acc

/-- Source `solve_group(students, zone_map, cost, cap_map, full_map, days,
late=...)` with the external `prob.solve(...)` call abstracted into the
`solver` oracle.  Empty cohorts return immediately; `late` cohorts go to
`greedy_assign`; otherwise the integer program is built, solved once, and the
returned variable values are committed unconditionally. -/
def solve_group (solver : Problem → SolveResult) (students : List Student)
    (zone_map : List (Workshop × Zone)) (cost : CostMap) (cap_map : CapMap)
    (full_map : FullMap) (days : List Day) (late : Bool) :
    Option (List Row × CapMap) :=
  if students.isEmpty then some ([], cap_map)
  else if late then greedy_assign students zone_map cost cap_map full_map days
  else
    match buildProblem students zone_map cost cap_map full_map days with
    | none => none
    | some prob =>
      extractRows zone_map (varList students cap_map) (solver prob).val cap_map

/-- The inputs of `main`, as the abstract tables the spec describes: the
aggregated schedule table, the long-form preference table, the manual-override
map (hard-coded in the source as `pre_assign`), and the two cohort cutoff
timestamps (hard-coded as `early_cut` / `mid_cut`). -/
structure MainInput where
  grp : List GrpRow
  prefs : List PrefRow
  preAssign : List (Student × List SlotKey)
  earlyCut : Int
  midCut : Int

/-- How many forced students hold slot `k`, i.e. the number of times `main`'s
capacity loop executes `cap -= 1` for key `k`. -/
def preCount (preAssign : List (Student × List SlotKey)) (k : SlotKey) : Nat :=
  (preAssign.filter (fun p => k ∈ p.2)).length

/-- The key of an aggregated schedule row. -/
def grpKey (r : GrpRow) : SlotKey := (r.workshop, r.day, r.session)

/-- The `cap_map` / `full_map` construction loop of `main`: each aggregated
schedule row's capacity minus one seat per forced student holding that slot. -/
def buildCapFull (grp : List GrpRow) (preAssign : List (Student × List SlotKey)) :
    CapMap × FullMap :=
  grp.foldl
    (fun (acc : CapMap × FullMap) row =>
      (dictInsert acc.1 (grpKey row)
        (row.capacity - (preCount preAssign (grpKey row) : Int)),
       dictInsert acc.2 (grpKey row) row.fullDay))
    ([], [])

/-- The manual-override rows `main` appends first, one per fixed slot, with the
zone looked up in `zone_map` (a `KeyError` — `none` — if a fixed workshop has
no zone). -/
def buildManualRows (zm : List (Workshop × Zone))
    (preAssign : List (Student × List SlotKey)) : Option (List Row) :=
  optFold
    (fun acc (p : Student × List SlotKey) =>
      optFold
        (fun acc' k =>
          match alookup zm k.1 with
          | none => none
          | some z => some (acc' ++ [⟨p.1, z, k.2.1, k.2.2, k.1⟩]))
        p.2 acc)
    preAssign []

/-- `days = sorted(grp['Day'].unique())`. -/
def mainDays (inp : MainInput) : List Day :=
  sortedUnique (inp.grp.map GrpRow.day)

/-- `dates[s]` in `main`'s cohort filters.  In the source this dict read cannot
fail because every filtered student comes from the same preference table the
dates map is built from; the `getD 0` default is unreachable there (see
`build_student_dates_isSome`). -/
def dateOf (dates : List (Student × Int)) (s : Student) : Int :=
  (alookup dates s).getD 0

/-- `all_students`: sorted distinct preference students minus the forced
(pre-assigned) students. -/
def mainAllStudents (inp : MainInput) : List Student :=
  (sortedUnique (inp.prefs.map PrefRow.student)).filter
    (fun s => ¬ (inp.preAssign.map Prod.fst).contains s)

/-- `students_early`: submission date strictly before the early cutoff. -/
def mainEarly (inp : MainInput) : List Student :=
  (mainAllStudents inp).filter
    (fun s => dateOf (build_student_dates inp.prefs) s < inp.earlyCut)

/-- `students_mid`: submission date in `[early_cut, mid_cut)`. -/
def mainMid (inp : MainInput) : List Student :=
  (mainAllStudents inp).filter
    (fun s => inp.earlyCut ≤ dateOf (build_student_dates inp.prefs) s
      ∧ dateOf (build_student_dates inp.prefs) s < inp.midCut)

/-- `students_late`: submission date at or after the mid cutoff. -/
def mainLate (inp : MainInput) : List Student :=
  (mainAllStudents inp).filter
    (fun s => inp.midCut ≤ dateOf (build_student_dates inp.prefs) s)

/-- Source `main`, from the point where the in-memory tables exist: build the
lookup structures and residual capacities, partition the cohorts, emit the
manual-override rows, solve the early cohort exactly, schedule the remaining
(mid plus late) cohort greedily, and concatenate all rows in that order. -/
def mainRun (solver : Problem → SolveResult) (inp : MainInput) :
    Option (List Row) :=
  let zm := build_zone_map inp.prefs
  let cost := build_costs inp.prefs
  let cmfm := buildCapFull inp.grp inp.preAssign
  match buildManualRows zm inp.preAssign with
  | none => none
  | some manual =>
    match solve_group solver (mainEarly inp) zm cost cmfm.1 cmfm.2
        (mainDays inp) false with
    | none => none
    | some (r1, cm1) =>
      match solve_group solver (mainMid inp ++ mainLate inp) zm cost cm1
          cmfm.2 (mainDays inp) true with
      | none => none
      | some (r2, _) => some (manual ++ r1 ++ r2)

/-- The declared aggregated capacity of slot `k` in the schedule table. -/
def declaredCap (grp : List GrpRow) (k : SlotKey) : Option Int :=
  alookup (grp.map (fun r => (grpKey r, r.capacity))) k


/-! ### Basic lemmas about the dictionary model -/

theorem alookup_append {κ ν : Type} [DecidableEq κ] (d1 d2 : List (κ × ν))
    (k : κ) :
    alookup (d1 ++ d2) k =
      match alookup d1 k with
      | some v => some v
      | none => alookup d2 k := by
  induction d1 with
  | nil => simp [alookup]
  | cons p rest ih =>
    obtain ⟨k', v'⟩ := p
    by_cases h : k' = k <;> simp [alookup, h, ih]

theorem alookup_isSome_iff {κ ν : Type} [DecidableEq κ] (d : List (κ × ν))
    (k : κ) : (alookup d k).isSome ↔ k ∈ d.map Prod.fst := by
  induction d with
  | nil => simp [alookup]
  | cons p rest ih =>
    obtain ⟨k', v'⟩ := p
    by_cases h : k' = k
    · subst h; simp [alookup]
    · simp [alookup, h, ih, Ne.symm h]

theorem alookup_replace {κ ν : Type} [DecidableEq κ] (d : List (κ × ν))
    (k k' : κ) (v : ν) :
    alookup (d.map (fun p => if p.1 = k then (k, v) else p)) k' =
      if k' = k then (if (alookup d k).isSome then some v else none)
      else alookup d k' := by
  induction d with
  | nil => by_cases h : k' = k <;> simp [alookup, h]
  | cons p rest ih =>
    obtain ⟨k0, v0⟩ := p
    rw [List.map_cons]
    by_cases h0 : k0 = k
    · subst h0
      have hhead : (if (k0, v0).1 = k0 then (k0, v) else (k0, v0)) = (k0, v) := by
        simp
      rw [hhead]
      by_cases h1 : k' = k0
      · subst h1
        simp [alookup]
      · simp [alookup, ih, h1, Ne.symm h1]
    · have hhead : (if (k0, v0).1 = k then (k, v) else (k0, v0)) = (k0, v0) := by
        simp [h0]
      rw [hhead]
      by_cases h1 : k' = k0
      · subst h1
        simp [alookup, h0, Ne.symm h0]
      · by_cases h2 : k' = k
        · subst h2
          simp [alookup, ih, h0, h1, Ne.symm h1]
        · simp [alookup, ih, h0, h1, Ne.symm h1, h2]

theorem alookup_dictInsert {κ ν : Type} [DecidableEq κ] (d : List (κ × ν))
    (k k' : κ) (v : ν) :
    alookup (dictInsert d k v) k' = if k' = k then some v else alookup d k' := by
  unfold dictInsert
  by_cases hc : (d.map Prod.fst).contains k
  · have hs : (alookup d k).isSome := by
      rw [alookup_isSome_iff]
      simpa using hc
    simp only [hc, if_true]
    rw [alookup_replace]
    simp [hs]
  · have hs : ¬ (alookup d k).isSome := by
      rw [alookup_isSome_iff]
      simpa using hc
    rw [if_neg hc, alookup_append]
    by_cases h1 : k' = k
    · subst h1
      cases hl : alookup d k' with
      | none => simp [alookup]
      | some v0 => exact absurd (by simp [hl]) hs
    · cases hl : alookup d k' with
      | none => simp [alookup, h1, Ne.symm h1]
      | some v0 => simp [h1]

theorem dictInsert_keys_mem {κ ν : Type} [DecidableEq κ] (d : List (κ × ν))
    (k k' : κ) (v : ν) :
    k' ∈ (dictInsert d k v).map Prod.fst ↔ k' = k ∨ k' ∈ d.map Prod.fst := by
  rw [← alookup_isSome_iff, alookup_dictInsert]
  by_cases h : k' = k
  · simp [h]
  · rw [if_neg h, alookup_isSome_iff]
    simp [h]

theorem dictInsert_keys_nodup {κ ν : Type} [DecidableEq κ] (d : List (κ × ν))
    (k : κ) (v : ν) (hd : (d.map Prod.fst).Nodup) :
    ((dictInsert d k v).map Prod.fst).Nodup := by
  unfold dictInsert
  by_cases hc : (d.map Prod.fst).contains k
  · rw [if_pos hc]
    have : (d.map (fun p => if p.1 = k then (k, v) else p)).map Prod.fst
        = d.map Prod.fst := by
      rw [List.map_map]
      apply List.map_congr_left
      intro p _
      by_cases h : p.1 = k <;> simp [h]
    rw [this]; exact hd
  · rw [if_neg hc]
    rw [List.map_append]
    simp only [List.map_cons, List.map_nil]
    rw [List.nodup_append]
    refine ⟨hd, List.nodup_singleton k, ?_⟩
    intro a ha
    simp only [List.mem_singleton]
    intro hak
    subst hak
    have hk : a ∉ d.map Prod.fst := by simpa using hc
    exact hk ha

/-! ### Lemmas about the fold, map and sort combinators -/

theorem optFold_nil {σ α : Type} (f : σ → α → Option σ) (st : σ) :
    optFold f [] st = some st := rfl

theorem optFold_cons {σ α : Type} (f : σ → α → Option σ) (a : α) (l : List α)
    (st : σ) :
    optFold f (a :: l) st =
      match f st a with
      | none => none
      | some st' => optFold f l st' := rfl

theorem optFold_append {σ α : Type} (f : σ → α → Option σ) (l1 l2 : List α)
    (st : σ) :
    optFold f (l1 ++ l2) st =
      match optFold f l1 st with
      | none => none
      | some st' => optFold f l2 st' := by
  induction l1 generalizing st with
  | nil => simp [optFold]
  | cons a rest ih =>
    rw [List.cons_append, optFold_cons, optFold_cons]
    cases f st a with
    | none => rfl
    | some st' => exact ih st'

/-- Invariant composition for `optFold`: a reflexive transitive relation
established by every successful step holds between initial and final state. -/
theorem optFold_chain {σ α : Type} {f : σ → α → Option σ} {l : List α}
    {st st' : σ} (R : σ → σ → Prop) (hrefl : ∀ s, R s s)
    (htrans : ∀ a b c, R a b → R b c → R a c)
    (hstep : ∀ s a s', a ∈ l → f s a = some s' → R s s')
    (h : optFold f l st = some st') : R st st' := by
  induction l generalizing st with
  | nil =>
    rw [optFold_nil, Option.some_inj] at h
    exact h ▸ hrefl st
  | cons a rest ih =>
    rw [optFold_cons] at h
    cases hf : f st a with
    | none => rw [hf] at h; exact absurd h (by simp)
    | some st1 =>
      rw [hf] at h
      exact htrans _ _ _ (hstep st a st1 (by simp) hf)
        (ih (fun s b s' hb => hstep s b s' (by simp [hb])) h)

theorem optFold_eq_none_of_bad {σ α : Type} {f : σ → α → Option σ}
    {l : List α} {a0 : α} (ha : a0 ∈ l) (hbad : ∀ s, f s a0 = none)
    (st : σ) : optFold f l st = none := by
  induction l generalizing st with
  | nil => exact absurd ha (by simp)
  | cons a rest ih =>
    rw [optFold_cons]
    rcases List.mem_cons.mp ha with h | h
    · subst h; rw [hbad st]
    · cases hf : f st a with
      | none => rfl
      | some st1 => exact ih h st1

theorem optMap_mem {α β : Type} {f : α → Option β} {l : List α}
    {ys : List β} (h : optMap f l = some ys) {y : β} (hy : y ∈ ys) :
    ∃ a ∈ l, f a = some y := by
  induction l generalizing ys with
  | nil =>
    simp [optMap] at h
    subst h
    exact absurd hy (by simp)
  | cons a rest ih =>
    rw [optMap] at h
    cases hf : f a with
    | none => rw [hf] at h; exact absurd h (by simp)
    | some b =>
      rw [hf] at h
      cases hr : optMap f rest with
      | none => rw [hr] at h; exact absurd h (by simp)
      | some bs =>
        rw [hr, Option.some_inj] at h
        subst h
        rcases List.mem_cons.mp hy with h | h
        · exact ⟨a, by simp, h ▸ hf⟩
        · obtain ⟨a', ha', hfa'⟩ := ih hr h
          exact ⟨a', by simp [ha'], hfa'⟩

theorem optMap_isSome {α β : Type} {f : α → Option β} {l : List α}
    (h : ∀ a ∈ l, (f a).isSome) : (optMap f l).isSome := by
  induction l with
  | nil => simp [optMap]
  | cons a rest ih =>
    rw [optMap]
    cases hf : f a with
    | none => exact absurd (hf ▸ h a (by simp)) (by simp)
    | some b =>
      cases hr : optMap f rest with
      | none => exact absurd (hr ▸ ih (fun x hx => h x (by simp [hx]))) (by simp)
      | some bs => simp

theorem optMap_eq_none_of_bad {α β : Type} {f : α → Option β} {l : List α}
    {a0 : α} (ha : a0 ∈ l) (hbad : f a0 = none) : optMap f l = none := by
  induction l with
  | nil => exact absurd ha (by simp)
  | cons a rest ih =>
    rw [optMap]
    rcases List.mem_cons.mp ha with h | h
    · subst h; rw [hbad]
    · cases hf : f a with
      | none => rfl
      | some b => rw [ih h]

theorem mem_sortBy {α : Type} (r : α → α → Prop) [DecidableRel r] (l : List α)
    (a : α) : a ∈ sortBy r l ↔ a ∈ l :=
  (List.perm_insertionSort r l).mem_iff

/-- The head of the stable sort is minimal for a total transitive order. -/
theorem sortBy_head_min {α : Type} (r : α → α → Prop) [DecidableRel r]
    [IsTotal α r] [IsTrans α r] (l : List α) (w : α) (t : List α)
    (h : sortBy r l = w :: t) : ∀ a ∈ l, a = w ∨ r w a := by
  intro a ha
  rw [← mem_sortBy r, h] at ha
  rcases List.mem_cons.mp ha with h1 | h1
  · exact Or.inl h1
  · right
    have hs : List.Sorted r (w :: t) := h ▸ List.sorted_insertionSort r l
    exact (List.sorted_cons.mp hs).1 a h1

theorem cnt_append (r1 r2 : List Row) (k : SlotKey) :
    cnt (r1 ++ r2) k = cnt r1 k + cnt r2 k := by
  unfold cnt
  rw [List.filter_append, List.length_append]

theorem cntPA_append (r1 r2 : List Row) (p : Student) (a : Workshop) :
    cntPA (r1 ++ r2) p a = cntPA r1 p a + cntPA r2 p a := by
  unfold cntPA
  rw [List.filter_append, List.length_append]

theorem coversCnt_append (r1 r2 : List Row) (d : Day) (sess : Nat) :
    coversCnt (r1 ++ r2) d sess = coversCnt r1 d sess + coversCnt r2 d sess := by
  unfold coversCnt
  rw [List.filter_append, List.length_append]

theorem capDec_keys (cm : CapMap) (k : SlotKey) :
    (capDec cm k).map Prod.fst = cm.map Prod.fst := by
  unfold capDec
  rw [List.map_map]
  apply List.map_congr_left
  intro p _
  by_cases h : p.1 = k <;> simp [h]

theorem alookup_capDec (cm : CapMap) (k k' : SlotKey) :
    alookup (capDec cm k) k' =
      if k' = k then (alookup cm k).map (fun c => c - 1) else alookup cm k' := by
  induction cm with
  | nil => by_cases h : k' = k <;> simp [capDec, alookup, h]
  | cons p rest ih =>
    obtain ⟨k0, v0⟩ := p
    unfold capDec at ih ⊢
    rw [List.map_cons]
    by_cases h0 : k0 = k
    · subst h0
      have hhead : (if (k0, v0).1 = k0 then ((k0, v0).1, (k0, v0).2 - 1) else (k0, v0))
          = (k0, v0 - 1) := by simp
      rw [hhead]
      by_cases h1 : k' = k0
      · subst h1
        simp [alookup]
      · simp [alookup, ih, h1, Ne.symm h1]
    · have hhead : (if (k0, v0).1 = k then ((k0, v0).1, (k0, v0).2 - 1) else (k0, v0))
          = (k0, v0) := by simp [h0]
      rw [hhead]
      by_cases h1 : k' = k0
      · subst h1
        simp [alookup, h0]
      · by_cases h2 : k' = k
        · subst h2
          simp [alookup, ih, h1, Ne.symm h1, h0, Ne.symm h0]
        · simp [alookup, ih, h1, Ne.symm h1, h2]

theorem capAt_capDec_same (cm : CapMap) (k : SlotKey)
    (h : k ∈ cm.map Prod.fst) : capAt (capDec cm k) k = capAt cm k - 1 := by
  unfold capAt
  rw [alookup_capDec, if_pos rfl]
  have hs : (alookup cm k).isSome := (alookup_isSome_iff cm k).mpr h
  cases hl : alookup cm k with
  | none => rw [hl] at hs; exact absurd hs (by simp)
  | some c => simp

theorem capAt_capDec_other (cm : CapMap) (k k' : SlotKey) (h : k' ≠ k) :
    capAt (capDec cm k) k' = capAt cm k' := by
  unfold capAt
  rw [alookup_capDec, if_neg h]

theorem optFold_isSome_iff {σ α : Type} {f : σ → α → Option σ}
    (good : α → Prop) (hgood : ∀ st a, (f st a).isSome ↔ good a)
    (l : List α) (st : σ) :
    (optFold f l st).isSome ↔ ∀ a ∈ l, good a := by
  induction l generalizing st with
  | nil => simp [optFold]
  | cons a rest ih =>
    rw [optFold_cons]
    cases hf : f st a with
    | none =>
      have : ¬ good a := by
        rw [← hgood st a, hf]
        simp
      simp [this]
    | some st1 =>
      have : good a := by
        rw [← hgood st a, hf]
        simp
      simp [this, ih st1]

theorem mem_dedupFirst {α : Type} [DecidableEq α] (l : List α) (x : α) :
    x ∈ dedupFirst l ↔ x ∈ l := by
  unfold dedupFirst
  suffices h : ∀ acc : List α,
      x ∈ l.foldl (fun acc x => if x ∈ acc then acc else acc ++ [x]) acc ↔
        x ∈ acc ∨ x ∈ l by
    simpa using h []
  induction l with
  | nil => simp
  | cons a rest ih =>
    intro acc
    rw [List.foldl_cons]
    by_cases ha : a ∈ acc
    · rw [if_pos ha, ih]
      constructor
      · rintro (h | h)
        · exact Or.inl h
        · exact Or.inr (by simp [h])
      · rintro (h | h)
        · exact Or.inl h
        · rcases List.mem_cons.mp h with h1 | h1
          · exact Or.inl (h1 ▸ ha)
          · exact Or.inr h1
    · rw [if_neg ha, ih]
      constructor
      · rintro (h | h)
        · rcases List.mem_append.mp h with h1 | h1
          · exact Or.inl h1
          · exact Or.inr (by simp at h1; simp [h1])
        · exact Or.inr (by simp [h])
      · rintro (h | h)
        · exact Or.inl (by simp [h])
        · rcases List.mem_cons.mp h with h1 | h1
          · exact Or.inl (by simp [h1])
          · exact Or.inr h1

theorem mem_sortedUnique (l : List String) (x : String) :
    x ∈ sortedUnique l ↔ x ∈ l := by
  unfold sortedUnique
  rw [mem_sortBy, mem_dedupFirst]

theorem alookup_mem {κ ν : Type} [DecidableEq κ] {d : List (κ × ν)} {k : κ}
    {v : ν} (h : alookup d k = some v) : (k, v) ∈ d := by
  induction d with
  | nil => simp [alookup] at h
  | cons p rest ih =>
    obtain ⟨k0, v0⟩ := p
    by_cases h0 : k0 = k
    · subst h0
      rw [alookup, if_pos rfl, Option.some_inj] at h
      subst h
      simp
    · rw [alookup, if_neg h0] at h
      exact List.mem_cons.mpr (Or.inr (ih h))

/-! ### Claim C8: the preference-cost model -/

/-- All ranks the preference table assigns to the pair `(s, w)`, in order. -/
def ranksOf (prefs : List PrefRow) (s : Student) (w : Workshop) : List Nat :=
  prefs.filterMap
    (fun r => if r.student = s ∧ r.workshop = w then some r.rank else none)

/-- The minimum of a list of ranks, `none` when there is no entry. -/
def minList : List Nat → Option Nat
  | [] => none
  | r :: rs =>
    match minList rs with
    | none => some r
    | some m => some (min r m)

/-- Merge an already-accumulated cost with the minimum of later entries. -/
def mergeMin : Option Nat → Option Nat → Option Nat
  | none, m => m
  | some c, none => some c
  | some c, some m => some (min c m)

theorem minList_spec (l : List Nat) (m : Nat) (h : minList l = some m) :
    m ∈ l ∧ ∀ r ∈ l, m ≤ r := by
  induction l generalizing m with
  | nil => simp [minList] at h
  | cons a rest ih =>
    rw [minList] at h
    cases hr : minList rest with
    | none =>
      rw [hr, Option.some_inj] at h
      subst h
      cases rest with
      | nil => simp
      | cons b bs =>
        exfalso
        rw [minList] at hr
        cases h2 : minList bs <;> simp [h2] at hr
    | some m0 =>
      rw [hr, Option.some_inj] at h
      subst h
      obtain ⟨hmem, hle⟩ := ih m0 hr
      constructor
      · rcases min_choice a m0 with h1 | h1 <;> rw [h1]
        · simp
        · simp [hmem]
      · intro r hr2
        rcases List.mem_cons.mp hr2 with h1 | h1
        · exact h1 ▸ Nat.min_le_left a m0
        · exact Nat.le_trans (Nat.min_le_right a m0) (hle r h1)

theorem build_costs_fold (prefs : List PrefRow) (acc : CostMap) (s : Student)
    (w : Workshop) :
    alookup
        (prefs.foldl
          (fun cost r =>
            dictInsert cost (r.student, r.workshop)
              (min r.rank ((alookup cost (r.student, r.workshop)).getD r.rank)))
          acc) (s, w)
      = mergeMin (alookup acc (s, w)) (minList (ranksOf prefs s w)) := by
  induction prefs generalizing acc with
  | nil =>
    rw [List.foldl_nil]
    cases alookup acc (s, w) <;> simp [ranksOf, minList, mergeMin]
  | cons r rest ih =>
    rw [List.foldl_cons, ih]
    by_cases hm : r.student = s ∧ r.workshop = w
    · obtain ⟨h1, h2⟩ := hm
      have hkey : (r.student, r.workshop) = (s, w) := by rw [h1, h2]
      rw [alookup_dictInsert]
      rw [if_pos hkey.symm]
      have hranks : ranksOf (r :: rest) s w = r.rank :: ranksOf rest s w := by
        unfold ranksOf
        rw [List.filterMap_cons]
        simp [h1, h2]
      rw [hranks, hkey]
      cases ha : alookup acc (s, w) with
      | none =>
        rw [minList]
        cases hr : minList (ranksOf rest s w) <;>
          simp [mergeMin, Nat.min_self]
      | some c =>
        rw [minList]
        cases hr : minList (ranksOf rest s w) with
        | none => simp [mergeMin, Nat.min_comm]
        | some m =>
          simp only [mergeMin, Option.getD_some, Option.some_inj]
          rw [Nat.min_comm r.rank c, Nat.min_assoc]
    · have hkey : ((s, w) : Student × Workshop) ≠ (r.student, r.workshop) := by
        intro hx
        exact hm ⟨(Prod.mk.injEq _ _ _ _ ▸ hx.symm :
          r.student = s ∧ r.workshop = w).1, (Prod.mk.injEq _ _ _ _ ▸ hx.symm :
          r.student = s ∧ r.workshop = w).2⟩
      rw [alookup_dictInsert, if_neg hkey]
      have hranks : ranksOf (r :: rest) s w = ranksOf rest s w := by
        unfold ranksOf
        rw [List.filterMap_cons]
        simp [hm]
      rw [hranks]

theorem build_costs_alookup (prefs : List PrefRow) (s : Student) (w : Workshop) :
    alookup (build_costs prefs) (s, w) = minList (ranksOf prefs s w) := by
  unfold build_costs
  rw [build_costs_fold]
  simp [alookup, mergeMin]

/-- Claim C8: the preference-cost function maps each (student, workshop) pair
to the smallest rank that student assigned that workshop across all entries
(duplicates collapse via minimum), and every pair with no entry is costed at
the sentinel 99, strictly greater than any real rank in the preference data
(whenever all real ranks are below 99, as they are in this repository's data
pipeline, which only emits ranks 1 and 2); `costGet` is precisely the accessor
`cost.get((s, w), 99)` used both in the exact solver's objective and as the
greedy candidate sort key. -/
theorem cost_min_collapse_and_sentinel (prefs : List PrefRow) (s : Student)
    (w : Workshop) :
    (∀ m, alookup (build_costs prefs) (s, w) = some m →
        m ∈ ranksOf prefs s w ∧ ∀ r ∈ ranksOf prefs s w, m ≤ r)
    ∧ (ranksOf prefs s w ≠ [] → (alookup (build_costs prefs) (s, w)).isSome)
    ∧ (ranksOf prefs s w = [] → costGet (build_costs prefs) s w = 99)
    ∧ ((∀ p ∈ prefs, p.rank < 99) → ranksOf prefs s w = [] →
        ∀ p ∈ prefs, p.rank < costGet (build_costs prefs) s w) := by
  refine ⟨?_, ?_, ?_, ?_⟩
  · intro m hm
    rw [build_costs_alookup] at hm
    exact minList_spec _ m hm
  · intro hne
    rw [build_costs_alookup]
    cases hl : ranksOf prefs s w with
    | nil => exact absurd hl hne
    | cons a rest =>
      rw [minList]
      cases minList rest <;> simp
  · intro hnil
    unfold costGet
    rw [build_costs_alookup, hnil]
    rfl
  · intro hb hnil p hp
    unfold costGet
    rw [build_costs_alookup, hnil]
    exact hb p hp

/-- Concrete preference table for the C8 witness: a duplicate (student,
workshop) pair with ranks 2 then 1, and a pair `("a", "V")` with no entry. -/
def prefsW8 : List PrefRow :=
  [⟨"a", "W", "Z", 2, 0⟩, ⟨"a", "W", "Z", 1, 0⟩]

theorem cost_min_collapse_and_sentinel_witness :
    (1 ∈ ranksOf prefsW8 "a" "W" ∧ ∀ r ∈ ranksOf prefsW8 "a" "W", 1 ≤ r)
    ∧ costGet (build_costs prefsW8) "a" "V" = 99
    ∧ ∀ p ∈ prefsW8, p.rank < costGet (build_costs prefsW8) "a" "V" :=
  ⟨(cost_min_collapse_and_sentinel prefsW8 "a" "W").1 1 (by decide),
   (cost_min_collapse_and_sentinel prefsW8 "a" "V").2.2.1 (by decide),
   (cost_min_collapse_and_sentinel prefsW8 "a" "V").2.2.2 (by decide) (by decide)⟩

/-! ### Claim C10: totality of the session-0 variable lookup -/

theorem halfPairsM_isSome (zm : List (Workshop × Zone)) (cm : CapMap)
    (fm : FullMap) (s : Student) (z : Zone)
    (hzm : ∀ k ∈ cm.map Prod.fst, (alookup zm k.1).isSome) :
    (halfPairsM zm cm fm s z).isSome := by
  unfold halfPairsM
  rw [optFold_isSome_iff (fun e => fullGet fm e.1 = true ∨ (alookup zm e.1.1).isSome)]
  · intro e he
    by_cases hf : fullGet fm e.1
    · exact Or.inl hf
    · exact Or.inr (hzm e.1 (List.mem_map.mpr ⟨e, he, rfl⟩))
  · intro st e
    by_cases hf : fullGet fm e.1
    · simp [hf]
    · cases hz : alookup zm e.1.1 <;> simp [hf, hz]

theorem fullPairsM_isSome (students : List Student) (zm : List (Workshop × Zone))
    (cm : CapMap) (fm : FullMap) (s : Student) (z : Zone) (hs : s ∈ students)
    (hzm : ∀ k ∈ cm.map Prod.fst, (alookup zm k.1).isSome)
    (hfz : ∀ k ∈ cm.map Prod.fst, fullGet fm k = true →
      (k.1, k.2.1, (0 : Nat)) ∈ cm.map Prod.fst) :
    (fullPairsM students zm cm fm s z).isSome := by
  unfold fullPairsM
  rw [optFold_isSome_iff (fun e => fullGet fm e.1 = false ∨
    (fullGet fm e.1 = true ∧ ∃ zw, alookup zm e.1.1 = some zw ∧
      (zw = z → s ∈ students ∧ (e.1.1, e.1.2.1, (0 : Nat)) ∈ cm.map Prod.fst)))]
  · intro e he
    by_cases hf : fullGet fm e.1
    · have hz := hzm e.1 (List.mem_map.mpr ⟨e, he, rfl⟩)
      cases hzl : alookup zm e.1.1 with
      | none => rw [hzl] at hz; exact absurd hz (by simp)
      | some zw =>
        exact Or.inr ⟨hf, zw, rfl,
          fun _ => ⟨hs, hfz e.1 (List.mem_map.mpr ⟨e, he, rfl⟩) hf⟩⟩
    · exact Or.inl (by simpa using hf)
  · intro st e
    by_cases hf : fullGet fm e.1
    · cases hz : alookup zm e.1.1 with
      | none => simp [hf, hz]
      | some zw =>
        by_cases hzz : zw = z
        · by_cases hx : s ∈ students ∧ (e.1.1, e.1.2.1, (0 : Nat)) ∈ cm.map Prod.fst
          · simp [hf, hz, hzz, xLookup, hx.1, hx.2]
          · rw [Decidable.not_and_iff_or_not] at hx
            rcases hx with hx | hx <;> simp [hf, hz, hzz, xLookup, hx]
        · simp [hf, hz, hzz]
    · simp [hf]

theorem mkZoneC_isSome (students : List Student) (zm : List (Workshop × Zone))
    (cost : CostMap) (cm : CapMap) (fm : FullMap) (s : Student) (z : Zone)
    (hs : s ∈ students)
    (hzm : ∀ k ∈ cm.map Prod.fst, (alookup zm k.1).isSome)
    (hfz : ∀ k ∈ cm.map Prod.fst, fullGet fm k = true →
      (k.1, k.2.1, (0 : Nat)) ∈ cm.map Prod.fst) :
    (mkZoneC students zm cost cm fm s z).isSome := by
  unfold mkZoneC
  have h1 := halfPairsM_isSome zm cm fm s z hzm
  have h2 := fullPairsM_isSome students zm cm fm s z hs hzm hfz
  cases hh : halfPairsM zm cm fm s z with
  | none => rw [hh] at h1; exact absurd h1 (by simp)
  | some hp =>
    cases hf : fullPairsM students zm cm fm s z with
    | none => rw [hf] at h2; exact absurd h2 (by simp)
    | some fp => simp

theorem mkZoneC_none_of_missing (students : List Student)
    (zm : List (Workshop × Zone)) (cost : CostMap) (cm : CapMap) (fm : FullMap)
    (s : Student) (w0 : Workshop) (d0 : Day) (t0 : Nat) (z0 : Zone)
    (hk : (w0, d0, t0) ∈ cm.map Prod.fst)
    (hfull : fullGet fm (w0, d0, t0) = true)
    (hmiss : (w0, d0, (0 : Nat)) ∉ cm.map Prod.fst)
    (hz : alookup zm w0 = some z0) :
    mkZoneC students zm cost cm fm s z0 = none := by
  obtain ⟨e0, he0, hkey⟩ := List.mem_map.mp hk
  have hbadfull : fullPairsM students zm cm fm s z0 = none := by
    unfold fullPairsM
    refine optFold_eq_none_of_bad he0 ?_ []
    intro acc
    rw [hkey] at *
    simp only [hkey, hfull, if_true, hz]
    have : xLookup students cm (s, (w0, d0, 0)) = none := by
      unfold xLookup
      simp [hmiss]
    simp [this]
  unfold mkZoneC
  cases hh : halfPairsM zm cm fm s z0 with
  | none => rfl
  | some hp => rw [hbadfull]

/-- Claim C10: building the zone-quota constraints looks up the session-0
variable `x[(s, w, d, 0)]` for every full-day-flagged capacity entry.  The
construction succeeds whenever every full-day-flagged `(workshop, day)` has a
session-0 capacity entry (and every capacity workshop has a zone); and for any
input with a full-day-flagged slot at a session other than 0 and no matching
session-0 entry, `solve_group` with `late = False` fails with a lookup error
before the solver is ever invoked. -/
theorem fullday_session0_lookup (students : List Student)
    (zm : List (Workshop × Zone)) (cost : CostMap) (cm : CapMap) (fm : FullMap)
    (days : List Day) :
    ((∀ k ∈ cm.map Prod.fst, fullGet fm k = true →
        (k.1, k.2.1, (0 : Nat)) ∈ cm.map Prod.fst) →
      (∀ k ∈ cm.map Prod.fst, (alookup zm k.1).isSome) →
      (buildProblem students zm cost cm fm days).isSome)
    ∧ (∀ (solver : Problem → SolveResult) (w0 : Workshop) (d0 : Day) (t0 : Nat)
        (z0 : Zone),
        students ≠ [] →
        (w0, d0, t0) ∈ cm.map Prod.fst →
        fullGet fm (w0, d0, t0) = true →
        t0 ≠ 0 →
        (w0, d0, (0 : Nat)) ∉ cm.map Prod.fst →
        alookup zm w0 = some z0 →
        solve_group solver students zm cost cm fm days false = none) := by
  constructor
  · intro hfz hzm
    unfold buildProblem
    have hb : (buildZoneCs students zm cost cm fm).isSome := by
      unfold buildZoneCs
      apply optMap_isSome
      intro p hp
      obtain ⟨s, hsmem, hp2⟩ := List.mem_flatMap.mp hp
      obtain ⟨z, _, hpz⟩ := List.mem_map.mp hp2
      subst hpz
      exact mkZoneC_isSome students zm cost cm fm s z hsmem hzm hfz
    cases hz : buildZoneCs students zm cost cm fm with
    | none => rw [hz] at hb; exact absurd hb (by simp)
    | some zcs => simp
  · intro solver w0 d0 t0 z0 hne hk hfull _ hmiss hz
    unfold solve_group
    rw [if_neg (by simpa using hne)]
    have hbad : buildZoneCs students zm cost cm fm = none := by
      unfold buildZoneCs
      cases students with
      | nil => exact absurd rfl hne
      | cons s0 rest =>
        have hmem : ((s0, z0) : Student × Zone) ∈ (s0 :: rest).flatMap
            (fun s => (zonesOf zm).map (fun z => (s, z))) := by
          apply List.mem_flatMap.mpr
          refine ⟨s0, by simp, ?_⟩
          apply List.mem_map.mpr
          refine ⟨z0, ?_, rfl⟩
          unfold zonesOf
          rw [mem_sortedUnique]
          exact List.mem_map.mpr ⟨(w0, z0), alookup_mem hz, rfl⟩
        exact optMap_eq_none_of_bad hmem
          (mkZoneC_none_of_missing (s0 :: rest) zm cost cm fm s0 w0 d0 t0
            z0 hk hfull hmiss hz)
    unfold buildProblem
    rw [hbad]
    simp

theorem fullday_session0_lookup_witness :
    (buildProblem ["s"] [("F", "Z")] [] [(("F", "d", 0), 1)]
        [(("F", "d", 0), true)] ["d"]).isSome
    ∧ solve_group (fun _ => ⟨SolverStatus.optimal, fun _ => 0⟩) ["s"]
        [("F", "Z")] [] [(("F", "d", 1), 1)] [(("F", "d", 1), true)] ["d"]
        false = none :=
  ⟨(fullday_session0_lookup ["s"] [("F", "Z")] [] [(("F", "d", 0), 1)]
      [(("F", "d", 0), true)] ["d"]).1 (by decide) (by decide),
   (fullday_session0_lookup ["s"] [("F", "Z")] [] [(("F", "d", 1), 1)]
      [(("F", "d", 1), true)] ["d"]).2 (fun _ => ⟨SolverStatus.optimal, fun _ => 0⟩)
      "F" "d" 1 "Z" (by decide) (by decide) (by decide) (by decide) (by decide)
      (by decide)⟩

/-! ### Claim C1: how `solve_group` treats a non-optimal solver result -/

/-- A solver oracle that reports `Infeasible` on every problem while leaving
every variable set to 1 (CBC leaves variable values behind even without an
optimality certificate; the source reads them via `var.value() == 1` without
ever inspecting `prob.status`). -/
def oracleAll1 : Problem → SolveResult :=
  fun _ => ⟨SolverStatus.infeasible, fun _ => 1⟩

def zmC1 : List (Workshop × Zone) := [("A", "Z")]

def costC1 : CostMap := [(("s1", "A"), 1)]

def cmC1 : CapMap := [(("A", "d", 1), 0)]

def fmC1 : FullMap := [(("A", "d", 1), false)]

/-- Counterexample to claim C1.  On a one-student cohort with a single
zero-capacity slot, the solve is non-optimal (the oracle reports
`Infeasible` on the built problem), and the claimed fallback chain would end
in the greedy heuristic, which assigns nothing here (third conjunct); yet
`solve_group` with `late = False` commits the non-optimal solve's variable
values anyway: it emits an assignment row and decrements the slot's capacity
to −1 (second conjunct).  So a non-optimal solve's values ARE used, no
relaxed retry happens, and greedy is never consulted. -/
theorem nonoptimal_values_committed :
    (buildProblem ["s1"] zmC1 costC1 cmC1 fmC1 ["d"]).map
        (fun p => (oracleAll1 p).status) = some SolverStatus.infeasible
    ∧ solve_group oracleAll1 ["s1"] zmC1 costC1 cmC1 fmC1 ["d"] false
        = some ([⟨"s1", "Z", "d", 1, "A"⟩], [(("A", "d", 1), -1)])
    ∧ greedy_assign ["s1"] zmC1 costC1 cmC1 fmC1 ["d"] = some ([], cmC1) := by
  refine ⟨?_, ?_, ?_⟩ <;> decide

/-- Claim C1 (corrected): the orchestrator performs no retry and no fallback
on a non-optimal solve.  `solve_group` with `late = False` never inspects the
solver status — two solvers returning the same variable values produce
identical output whatever their statuses — and the greedy heuristic is invoked
exactly for cohorts designated `late = True`, where `solve_group` is literally
`greedy_assign`. -/
theorem solve_group_status_blind (solver1 solver2 : Problem → SolveResult)
    (students : List Student) (zm : List (Workshop × Zone)) (cost : CostMap)
    (cm : CapMap) (fm : FullMap) (days : List Day)
    (hval : ∀ p, (solver1 p).val = (solver2 p).val) :
    solve_group solver1 students zm cost cm fm days false
      = solve_group solver2 students zm cost cm fm days false
    ∧ ∀ solver : Problem → SolveResult,
        solve_group solver students zm cost cm fm days true
          = greedy_assign students zm cost cm fm days := by
  constructor
  · unfold solve_group
    by_cases he : students.isEmpty
    · rw [if_pos he, if_pos he]
    · simp only [if_neg he, Bool.false_eq_true, if_false]
      cases hb : buildProblem students zm cost cm fm days with
      | none => rfl
      | some prob =>
        show extractRows zm (varList students cm) (solver1 prob).val cm
            = extractRows zm (varList students cm) (solver2 prob).val cm
        rw [hval prob]
  · intro solver
    unfold solve_group
    by_cases he : students.isEmpty
    · rw [if_pos he]
      have : students = [] := List.isEmpty_iff.mp he
      subst this
      rfl
    · rw [if_neg he, if_pos rfl]

theorem solve_group_status_blind_witness :
    solve_group oracleAll1 ["s1"] zmC1 costC1 cmC1 fmC1 ["d"] false
      = solve_group (fun _ => ⟨SolverStatus.optimal, fun _ => 1⟩) ["s1"] zmC1
          costC1 cmC1 fmC1 ["d"] false :=
  (solve_group_status_blind oracleAll1
    (fun _ => ⟨SolverStatus.optimal, fun _ => 1⟩) ["s1"] zmC1 costC1 cmC1 fmC1
    ["d"] (fun _ => rfl)).1

/-! ### Lemmas about the capacity-table construction of `main` -/

theorem buildCapFull_go_untouched (grp : List GrpRow)
    (preAssign : List (Student × List SlotKey)) (acc : CapMap × FullMap)
    (k : SlotKey) (hk : k ∉ grp.map grpKey) :
    alookup
        (grp.foldl
          (fun (acc : CapMap × FullMap) row =>
            (dictInsert acc.1 (grpKey row)
              (row.capacity - (preCount preAssign (grpKey row) : Int)),
             dictInsert acc.2 (grpKey row) row.fullDay))
          acc).1 k = alookup acc.1 k := by
  induction grp generalizing acc with
  | nil => rfl
  | cons g rest ih =>
    rw [List.foldl_cons]
    have hk1 : k ≠ grpKey g := by
      intro h
      exact hk (by simp [h])
    have hk2 : k ∉ rest.map grpKey := fun h => hk (by simp [h])
    rw [ih _ hk2]
    exact (alookup_dictInsert acc.1 (grpKey g) k _).trans (if_neg hk1)

theorem buildCapFull_capAt (grp : List GrpRow)
    (preAssign : List (Student × List SlotKey))
    (hnd : (grp.map grpKey).Nodup) (k : SlotKey) (cap : Int)
    (hdecl : declaredCap grp k = some cap) :
    capAt (buildCapFull grp preAssign).1 k
      = cap - (preCount preAssign k : Int) := by
  unfold buildCapFull
  suffices h : ∀ acc : CapMap × FullMap,
      alookup
          (grp.foldl
            (fun (acc : CapMap × FullMap) row =>
              (dictInsert acc.1 (grpKey row)
                (row.capacity - (preCount preAssign (grpKey row) : Int)),
               dictInsert acc.2 (grpKey row) row.fullDay))
            acc).1 k = some (cap - (preCount preAssign k : Int)) by
    unfold capAt
    rw [h ([], [])]
    rfl
  induction grp with
  | nil => simp [declaredCap, alookup] at hdecl
  | cons g rest ih =>
    intro acc
    rw [List.foldl_cons]
    by_cases hk : k = grpKey g
    · have hcap : cap = g.capacity := by
        unfold declaredCap at hdecl
        rw [List.map_cons] at hdecl
        have : grpKey g = k := hk.symm
        rw [alookup, if_pos this] at hdecl
        exact (Option.some_inj.mp hdecl).symm
      have hrest : k ∉ rest.map grpKey := by
        rw [List.map_cons] at hnd
        intro hm
        exact (List.nodup_cons.mp hnd).1 (hk ▸ hm)
      rw [buildCapFull_go_untouched rest preAssign _ k hrest]
      rw [alookup_dictInsert, if_pos hk, hcap, hk]
    · have hdecl' : declaredCap rest k = some cap := by
        unfold declaredCap at hdecl ⊢
        rw [List.map_cons, alookup, if_neg (fun h => hk h.symm)] at hdecl
        exact hdecl
      have hnd' : (rest.map grpKey).Nodup := by
        rw [List.map_cons] at hnd
        exact (List.nodup_cons.mp hnd).2
      exact ih hnd' hdecl' _

theorem buildCapFull_keys (grp : List GrpRow)
    (preAssign : List (Student × List SlotKey)) (k : SlotKey) :
    k ∈ (buildCapFull grp preAssign).1.map Prod.fst ↔ k ∈ grp.map grpKey := by
  unfold buildCapFull
  suffices h : ∀ acc : CapMap × FullMap,
      k ∈ (grp.foldl
            (fun (acc : CapMap × FullMap) row =>
              (dictInsert acc.1 (grpKey row)
                (row.capacity - (preCount preAssign (grpKey row) : Int)),
               dictInsert acc.2 (grpKey row) row.fullDay))
            acc).1.map Prod.fst ↔ k ∈ acc.1.map Prod.fst ∨ k ∈ grp.map grpKey by
    rw [h ([], [])]
    simp
  induction grp with
  | nil => simp
  | cons g rest ih =>
    intro acc
    rw [List.foldl_cons, ih _, dictInsert_keys_mem]
    rw [List.map_cons, List.mem_cons]
    tauto

theorem buildManualRows_isSome (zm : List (Workshop × Zone))
    (preAssign : List (Student × List SlotKey)) :
    (buildManualRows zm preAssign).isSome ↔
      ∀ p ∈ preAssign, ∀ k ∈ p.2, (alookup zm k.1).isSome := by
  unfold buildManualRows
  rw [optFold_isSome_iff (fun p => ∀ k ∈ p.2, (alookup zm k.1).isSome)]
  intro st p
  rw [optFold_isSome_iff (fun k : SlotKey => (alookup zm k.1).isSome)]
  intro st' k
  cases hz : alookup zm k.1 <;> simp [hz]

/-! ### Claim C7: manual-override slots absent from the capacity table -/

/-- A solver oracle returning an optimal status and the feasible assignment
`{s1 ↦ A session 1, s1 ↦ B session 2}` for the two-slot witness schedule. -/
def oracleW : Problem → SolveResult :=
  fun _ =>
    ⟨SolverStatus.optimal,
     fun v => if v = ("s1", ("A", "d", 1)) ∨ v = ("s1", ("B", "d", 2)) then 1
       else 0⟩

def grpW : List GrpRow := [⟨"d", "A", 1, false, 2⟩, ⟨"d", "B", 2, false, 1⟩]

def prefsW : List PrefRow := [⟨"s1", "A", "Z", 1, 10⟩, ⟨"s1", "B", "Z", 2, 10⟩]

/-- A run whose manual override fixes `m1` into slot `("A", "dX", 1)`, which
does not exist in the schedule table. -/
def inpC7 : MainInput := ⟨grpW, prefsW, [("m1", [("A", "dX", 1)])], 50, 60⟩

/-- Counterexample to claim C7.  The manual override references the slot
`("A", "dX", 1)`, which is absent from the aggregated capacity table (first
conjunct), yet the run does not abort: `main` completes and even emits the
unreconcilable fixed slot as an output row, with no capacity accounting for
it (third conjunct). -/
theorem unreconciled_override_not_fatal :
    declaredCap inpC7.grp ("A", "dX", 1) = none
    ∧ (∃ p ∈ inpC7.preAssign, ("A", "dX", 1) ∈ p.2)
    ∧ mainRun oracleW inpC7 =
        some [⟨"m1", "Z", "dX", 1, "A"⟩, ⟨"s1", "Z", "d", 1, "A"⟩,
              ⟨"s1", "Z", "d", 2, "B"⟩] := by
  refine ⟨?_, ?_, ?_⟩ <;> decide

/-- Claim C7 (corrected): a fixed slot naming a combination absent from the
aggregated capacity table is not detected at all.  The capacity table's keys
are exactly the schedule keys whatever the overrides name (third conjunct);
each present slot's residual capacity subtracts only the override seats that
name that very slot, so an absent fixed slot causes no decrement anywhere
(second conjunct); and the manual phase aborts if and only if some fixed
slot's workshop is missing from the zone map — never because the slot is
missing from the capacity table (first conjunct). -/
theorem unreconciled_override_silently_ignored (inp : MainInput) :
    ((buildManualRows (build_zone_map inp.prefs) inp.preAssign).isSome ↔
      ∀ p ∈ inp.preAssign, ∀ k ∈ p.2,
        (alookup (build_zone_map inp.prefs) k.1).isSome)
    ∧ ((inp.grp.map grpKey).Nodup → ∀ k cap, declaredCap inp.grp k = some cap →
        capAt (buildCapFull inp.grp inp.preAssign).1 k
          = cap - (preCount inp.preAssign k : Int))
    ∧ (∀ k, k ∈ (buildCapFull inp.grp inp.preAssign).1.map Prod.fst ↔
        k ∈ inp.grp.map grpKey) :=
  ⟨buildManualRows_isSome _ _,
   fun hnd k cap hd => buildCapFull_capAt _ _ hnd k cap hd,
   fun k => buildCapFull_keys _ _ k⟩

theorem unreconciled_override_silently_ignored_witness :
    capAt (buildCapFull inpC7.grp inpC7.preAssign).1 ("A", "d", 1)
      = 2 - (preCount inpC7.preAssign ("A", "d", 1) : Int) :=
  (unreconciled_override_silently_ignored inpC7).2.1 (by decide) ("A", "d", 1) 2
    (by decide)

/-! ### Greedy step characterizations (claims C5 and C6) -/

theorem sortBy_eq_nil_iff {α : Type} (r : α → α → Prop) [DecidableRel r]
    (l : List α) : sortBy r l = [] ↔ l = [] := by
  constructor
  · intro h
    have hlen := (List.perm_insertionSort r l).length_eq
    rw [show List.insertionSort r l = sortBy r l from rfl, h] at hlen
    exact List.length_eq_zero.mp hlen.symm
  · intro h
    subst h
    rfl

theorem sessStep_skip (zm : List (Workshop × Zone)) (cost : CostMap)
    (s : Student) (day : Day) (sess : Nat) (st : GState)
    (h : (day, sess) ∈ st.usedS) : sessStep zm cost s day sess st = some st := by
  unfold sessStep
  rw [if_pos h]

theorem sessStep_noCands (zm : List (Workshop × Zone)) (cost : CostMap)
    (s : Student) (day : Day) (sess : Nat) (st : GState)
    (h : candWs st.cm day sess st.usedW = []) :
    sessStep zm cost s day sess st = some st := by
  unfold sessStep
  by_cases hm : (day, sess) ∈ st.usedS
  · rw [if_pos hm]
  · rw [if_neg hm, h]
    rfl

/-- A successful non-trivial half-day step takes a lowest-cost candidate. -/
theorem sessStep_assign (zm : List (Workshop × Zone)) (cost : CostMap)
    (s : Student) (day : Day) (sess : Nat) (st st' : GState)
    (h : sessStep zm cost s day sess st = some st')
    (hns : (day, sess) ∉ st.usedS)
    (hc : candWs st.cm day sess st.usedW ≠ []) :
    ∃ w z, alookup zm w = some z
      ∧ w ∈ candWs st.cm day sess st.usedW
      ∧ (∀ w' ∈ candWs st.cm day sess st.usedW,
          costGet cost s w ≤ costGet cost s w')
      ∧ st' = ⟨st.rows ++ [⟨s, z, day, sess, w⟩], capDec st.cm (w, day, sess),
          st.usedW ++ [w], st.usedS ++ [(day, sess)]⟩ := by
  unfold sessStep at h
  rw [if_neg hns] at h
  cases hs : sortBy (costLe cost s) (candWs st.cm day sess st.usedW) with
  | nil => exact absurd ((sortBy_eq_nil_iff _ _).mp hs) hc
  | cons w t =>
    rw [hs] at h
    dsimp only at h
    cases hz : alookup zm w with
    | none => rw [hz] at h; exact absurd h (by simp)
    | some z =>
      rw [hz] at h
      dsimp only at h
      refine ⟨w, z, hz, ?_, ?_, ?_⟩
      · rw [← mem_sortBy (costLe cost s), hs]
        simp
      · intro w' hw'
        rcases sortBy_head_min (costLe cost s) _ w t hs w' hw' with h1 | h1
        · exact h1 ▸ Nat.le_refl _
        · exact h1
      · exact (Option.some_inj.mp h).symm

/-- A successful day step with a session-0 candidate takes a lowest-cost one
and marks both half-day periods used. -/
theorem greedyDay_full (zm : List (Workshop × Zone)) (cost : CostMap)
    (s : Student) (day : Day) (st st' : GState)
    (h : greedyDay zm cost s day st = some st')
    (hc : candWs st.cm day 0 st.usedW ≠ []) :
    ∃ w z, alookup zm w = some z
      ∧ w ∈ candWs st.cm day 0 st.usedW
      ∧ (∀ w' ∈ candWs st.cm day 0 st.usedW,
          costGet cost s w ≤ costGet cost s w')
      ∧ st' = ⟨st.rows ++ [⟨s, z, day, 0, w⟩], capDec st.cm (w, day, 0),
          st.usedW ++ [w], st.usedS ++ [(day, 1), (day, 2)]⟩ := by
  unfold greedyDay at h
  cases hs : sortBy (costLe cost s) (candWs st.cm day 0 st.usedW) with
  | nil => exact absurd ((sortBy_eq_nil_iff _ _).mp hs) hc
  | cons w t =>
    rw [hs] at h
    dsimp only at h
    cases hz : alookup zm w with
    | none => rw [hz] at h; exact absurd h (by simp)
    | some z =>
      rw [hz] at h
      dsimp only at h
      refine ⟨w, z, hz, ?_, ?_, ?_⟩
      · rw [← mem_sortBy (costLe cost s), hs]
        simp
      · intro w' hw'
        rcases sortBy_head_min (costLe cost s) _ w t hs w' hw' with h1 | h1
        · exact h1 ▸ Nat.le_refl _
        · exact h1
      · exact (Option.some_inj.mp h).symm

/-- Without a session-0 candidate the day step is exactly the two half-day
session steps in order. -/
theorem greedyDay_split (zm : List (Workshop × Zone)) (cost : CostMap)
    (s : Student) (day : Day) (st : GState)
    (hc : candWs st.cm day 0 st.usedW = []) :
    greedyDay zm cost s day st =
      match sessStep zm cost s day 1 st with
      | none => none
      | some st1 => sessStep zm cost s day 2 st1 := by
  unfold greedyDay
  rw [hc]
  rfl

/-! ### Claims C5 and C6: what the greedy fallback actually guarantees -/

/-- Half-day-equivalent zone-quota units a participant has accumulated in the
given rows (full-day = 2, half-day = 1) — the spec's "Zone Quota State". -/
def zoneUnits (rows : List Row) (s : Student) (z : Zone) : Nat :=
  ((rows.filter (fun r => r.student = s ∧ r.zone = z)).map
    (fun r => if r.session = 0 then 2 else 1)).sum

def zmC5 : List (Workshop × Zone) := [("F", "Z1"), ("H1", "Z1"), ("H2", "Z2")]

def costC5 : CostMap := [(("s", "F"), 1), (("s", "H1"), 1), (("s", "H2"), 2)]

def cmC5 : CapMap := [(("F", "d1", 0), 1), (("H1", "d2", 1), 1),
  (("H2", "d2", 1), 1)]

/-- Counterexample to claim C5.  After day 1 the participant's full-day `F`
has already met zone `Z1`'s 2-unit quota, zone `Z2` is still at 0, and on day
2 session 1 both `H1` (zone `Z1`, cost 1) and `H2` (zone `Z2`, cost 2) are
capacity-positive unused candidates.  A zone-quota-aware greedy would prefer
the zone-needy `H2`; the code assigns `H1` purely by lowest cost, so the
greedy fallback is not zone-quota-aware. -/
theorem greedy_ignores_zone_quota :
    greedy_assign ["s"] zmC5 costC5 cmC5 [] ["d1", "d2"]
      = some ([⟨"s", "Z1", "d1", 0, "F"⟩, ⟨"s", "Z1", "d2", 1, "H1"⟩],
              [(("F", "d1", 0), 0), (("H1", "d2", 1), 0), (("H2", "d2", 1), 1)])
    ∧ zoneUnits [⟨"s", "Z1", "d1", 0, "F"⟩] "s" "Z1" = 2
    ∧ zoneUnits [⟨"s", "Z1", "d1", 0, "F"⟩] "s" "Z2" = 0
    ∧ alookup zmC5 "H2" = some "Z2"
    ∧ "H2" ∈ candWs
        [(("F", "d1", 0), 0), (("H1", "d2", 1), 1), (("H2", "d2", 1), 1)]
        "d2" 1 ["F"] := by
  refine ⟨?_, ?_, ?_, ?_, ?_⟩ <;> decide

/-- Claim C5 (corrected): the greedy fallback is not zone-quota-aware.  Its
candidate pools (`candWs`) mention only the day, the session index, positive
remaining capacity and the participant's used workshops — no zone and no
quota state — and every non-trivial step assigns a candidate of minimal
preference cost: a session-0 slot whenever one is available, otherwise each
unfilled half-day session in order. -/
theorem greedy_choice_cost_only (zm : List (Workshop × Zone)) (cost : CostMap)
    (s : Student) (day : Day) (st : GState) :
    (∀ sess st', sessStep zm cost s day sess st = some st' →
      ((day, sess) ∈ st.usedS → st' = st)
      ∧ (candWs st.cm day sess st.usedW = [] → st' = st)
      ∧ ((day, sess) ∉ st.usedS → candWs st.cm day sess st.usedW ≠ [] →
          ∃ w z, alookup zm w = some z
            ∧ w ∈ candWs st.cm day sess st.usedW
            ∧ (∀ w' ∈ candWs st.cm day sess st.usedW,
                costGet cost s w ≤ costGet cost s w')
            ∧ st' = ⟨st.rows ++ [⟨s, z, day, sess, w⟩],
                capDec st.cm (w, day, sess), st.usedW ++ [w],
                st.usedS ++ [(day, sess)]⟩))
    ∧ (∀ st', greedyDay zm cost s day st = some st' →
        candWs st.cm day 0 st.usedW ≠ [] →
          ∃ w z, alookup zm w = some z
            ∧ w ∈ candWs st.cm day 0 st.usedW
            ∧ (∀ w' ∈ candWs st.cm day 0 st.usedW,
                costGet cost s w ≤ costGet cost s w')
            ∧ st' = ⟨st.rows ++ [⟨s, z, day, 0, w⟩], capDec st.cm (w, day, 0),
                st.usedW ++ [w], st.usedS ++ [(day, 1), (day, 2)]⟩)
    ∧ (candWs st.cm day 0 st.usedW = [] →
        greedyDay zm cost s day st =
          match sessStep zm cost s day 1 st with
          | none => none
          | some st1 => sessStep zm cost s day 2 st1) := by
  refine ⟨?_, ?_, ?_⟩
  · intro sess st' h
    refine ⟨?_, ?_, ?_⟩
    · intro hm
      have := sessStep_skip zm cost s day sess st hm
      rw [this] at h
      exact (Option.some_inj.mp h).symm
    · intro hc
      have := sessStep_noCands zm cost s day sess st hc
      rw [this] at h
      exact (Option.some_inj.mp h).symm
    · intro hns hc
      exact sessStep_assign zm cost s day sess st st' h hns hc
  · intro st' h hc
    exact greedyDay_full zm cost s day st st' h hc
  · intro hc
    exact greedyDay_split zm cost s day st hc

def stC5 : GState :=
  ⟨[⟨"s", "Z1", "d1", 0, "F"⟩],
   [(("F", "d1", 0), 0), (("H1", "d2", 1), 1), (("H2", "d2", 1), 1)],
   ["F"], [("d1", 1), ("d1", 2)]⟩

def stC5' : GState :=
  ⟨[⟨"s", "Z1", "d1", 0, "F"⟩, ⟨"s", "Z1", "d2", 1, "H1"⟩],
   [(("F", "d1", 0), 0), (("H1", "d2", 1), 0), (("H2", "d2", 1), 1)],
   ["F", "H1"], [("d1", 1), ("d1", 2), ("d2", 1)]⟩

theorem greedy_choice_cost_only_witness :
    ∃ w z, alookup zmC5 w = some z
      ∧ w ∈ candWs stC5.cm "d2" 1 stC5.usedW
      ∧ (∀ w' ∈ candWs stC5.cm "d2" 1 stC5.usedW,
          costGet costC5 "s" w ≤ costGet costC5 "s" w')
      ∧ stC5' = ⟨stC5.rows ++ [⟨"s", z, "d2", 1, w⟩],
          capDec stC5.cm (w, "d2", 1), stC5.usedW ++ [w],
          stC5.usedS ++ [("d2", 1)]⟩ :=
  ((greedy_choice_cost_only zmC5 costC5 "s" "d2" stC5).1 1 stC5'
    (by decide)).2.2 (by decide) (by decide)

def zmC6 : List (Workshop × Zone) := [("W", "Z")]

def cmC6 : CapMap := [(("W", "d1", 1), 2), (("W", "d2", 1), 1)]

/-- Counterexample to claim C6.  The single participant takes workshop `W` on
day 1, session 1; on day 2 session 1 the only slot covering the period is `W`
again, whose remaining capacity is still 1, but the no-repeat rule silently
excludes it, so the period is left with no assignment even though a slot
covering it has remaining capacity. -/
theorem greedy_leaves_period_unassigned :
    greedy_assign ["s"] zmC6 [] cmC6 [] ["d1", "d2"]
      = some ([⟨"s", "Z", "d1", 1, "W"⟩],
              [(("W", "d1", 1), 1), (("W", "d2", 1), 1)])
    ∧ capAt [(("W", "d1", 1), 1), (("W", "d2", 1), 1)] ("W", "d2", 1) = 1
    ∧ coversCnt [⟨"s", "Z", "d1", 1, "W"⟩] "d2" 1 = 0 := by
  refine ⟨?_, ?_, ?_⟩ <;> decide

/-- Claim C6 (corrected): per processed day the greedy fallback covers each
half-day period exactly once whenever a covering slot with remaining capacity
exists whose workshop the participant has not already used at the moment the
period is handled — a session-0 candidate covers both periods at once,
otherwise each unfilled session with a candidate receives exactly one row,
and a session whose candidate pool is empty (for example because every
capacity-positive covering slot is an already-used workshop) is skipped. -/
theorem greedy_covers_period_iff_candidate (zm : List (Workshop × Zone))
    (cost : CostMap) (s : Student) (day : Day) (st : GState) :
    (∀ st', greedyDay zm cost s day st = some st' →
      candWs st.cm day 0 st.usedW ≠ [] →
        ∃ rnew, st'.rows = st.rows ++ rnew
          ∧ coversCnt rnew day 1 = 1 ∧ coversCnt rnew day 2 = 1)
    ∧ (candWs st.cm day 0 st.usedW = [] →
        greedyDay zm cost s day st =
          match sessStep zm cost s day 1 st with
          | none => none
          | some st1 => sessStep zm cost s day 2 st1)
    ∧ (∀ sess (st0 st1 : GState), sessStep zm cost s day sess st0 = some st1 →
        (day, sess) ∉ st0.usedS →
        (candWs st0.cm day sess st0.usedW ≠ [] →
          ∃ rnew, st1.rows = st0.rows ++ rnew ∧ coversCnt rnew day sess = 1)
        ∧ (candWs st0.cm day sess st0.usedW = [] → st1 = st0)) := by
  refine ⟨?_, ?_, ?_⟩
  · intro st' h hc
    obtain ⟨w, z, _, _, _, hst⟩ := greedyDay_full zm cost s day st st' h hc
    refine ⟨[⟨s, z, day, 0, w⟩], by rw [hst], ?_, ?_⟩ <;> simp [coversCnt]
  · intro hc
    exact greedyDay_split zm cost s day st hc
  · intro sess st0 st1 h hns
    constructor
    · intro hc
      obtain ⟨w, z, _, _, _, hst⟩ :=
        sessStep_assign zm cost s day sess st0 st1 h hns hc
      refine ⟨[⟨s, z, day, sess, w⟩], by rw [hst], ?_⟩
      simp [coversCnt]
    · intro hc
      have := sessStep_noCands zm cost s day sess st0 hc
      rw [this] at h
      exact (Option.some_inj.mp h).symm

def stC6 : GState := ⟨[], cmC6, [], []⟩

def stC6' : GState :=
  ⟨[⟨"s", "Z", "d1", 1, "W"⟩], [(("W", "d1", 1), 1), (("W", "d2", 1), 1)],
   ["W"], [("d1", 1)]⟩

theorem greedy_covers_period_iff_candidate_witness :
    ∃ rnew, stC6'.rows = stC6.rows ++ rnew ∧ coversCnt rnew "d1" 1 = 1 :=
  (((greedy_covers_period_iff_candidate zmC6 [] "s" "d1" stC6).2.2 1 stC6 stC6'
    (by decide) (by decide)).1 (by decide))

/-! ### Claim C4: content of the zone-quota constraints -/

theorem sum_filter_partition3 {α : Type} (l : List α) (a b : α → Bool)
    (f : α → Int) (hab : ∀ x, a x = true → b x = false) :
    ((l.filter a).map f).sum + ((l.filter b).map f).sum
        + ((l.filter (fun x => !a x && !b x)).map f).sum
      = (l.map f).sum := by
  induction l with
  | nil => simp
  | cons x rest ih =>
    by_cases hax : a x = true
    · have hbx : b x = false := hab x hax
      simp [List.filter_cons, hax, hbx]
      omega
    · have hax' : a x = false := by
        cases h : a x
        · rfl
        · exact absurd h hax
      by_cases hbx : b x = true
      · simp [List.filter_cons, hax', hbx]
        omega
      · have hbx' : b x = false := by
          cases h : b x
          · rfl
          · exact absurd h hbx
        simp [List.filter_cons, hax', hbx']
        omega

/-- The successful `half_pairs` list in closed form. -/
theorem halfPairsM_eq (zm : List (Workshop × Zone)) (cm : CapMap) (fm : FullMap)
    (s : Student) (z : Zone) (hp : List (Workshop × Var))
    (h : halfPairsM zm cm fm s z = some hp) :
    hp = cm.filterMap (fun e =>
      if fullGet fm e.1 then none
      else
        match alookup zm e.1.1 with
        | none => none
        | some zw => if zw = z then some (e.1.1, (s, e.1)) else none) := by
  unfold halfPairsM at h
  suffices hgen : ∀ (acc : List (Workshop × Var)) (res : List (Workshop × Var)),
      optFold
          (fun acc e =>
            if fullGet fm e.1 then some acc
            else
              match alookup zm e.1.1 with
              | none => none
              | some zw =>
                some (if zw = z then acc ++ [(e.1.1, (s, e.1))] else acc))
          cm acc = some res →
        res = acc ++ cm.filterMap (fun e =>
          if fullGet fm e.1 then none
          else
            match alookup zm e.1.1 with
            | none => none
            | some zw => if zw = z then some (e.1.1, (s, e.1)) else none) by
    have := hgen [] hp h
    simpa using this
  clear h
  induction cm with
  | nil =>
    intro acc res h
    rw [optFold_nil, Option.some_inj] at h
    simp [h.symm]
  | cons e rest ih =>
    intro acc res h
    rw [optFold_cons] at h
    rw [List.filterMap_cons]
    by_cases hf : fullGet fm e.1
    · rw [if_pos hf] at h ⊢
      exact ih acc res h
    · rw [if_neg hf] at h ⊢
      cases hz : alookup zm e.1.1 with
      | none => rw [hz] at h; exact absurd h (by simp)
      | some zw =>
        rw [hz] at h
        dsimp only at h ⊢
        by_cases hzz : zw = z
        · rw [if_pos hzz] at h ⊢
          have := ih _ res h
          rw [this, List.append_assoc]
          rfl
        · rw [if_neg hzz] at h ⊢
          exact ih acc res h

/-- The variable returned by a successful `x` lookup is the queried key. -/
theorem xLookup_eq (students : List Student) (cm : CapMap) (v xv : Var)
    (h : xLookup students cm v = some xv) : xv = v := by
  unfold xLookup at h
  by_cases hc : v.1 ∈ students ∧ v.2 ∈ cm.map Prod.fst
  · rw [if_pos hc, Option.some_inj] at h
    exact h.symm
  · rw [if_neg hc] at h
    exact absurd h (by simp)

/-- The successful `full_pairs` list in closed form: note the variable is the
session-0 one. -/
theorem fullPairsM_eq (students : List Student) (zm : List (Workshop × Zone))
    (cm : CapMap) (fm : FullMap) (s : Student) (z : Zone)
    (fp : List (Workshop × Var))
    (h : fullPairsM students zm cm fm s z = some fp) :
    fp = cm.filterMap (fun e =>
      if fullGet fm e.1 then
        match alookup zm e.1.1 with
        | none => none
        | some zw =>
          if zw = z then some (e.1.1, (s, (e.1.1, e.1.2.1, 0))) else none
      else none) := by
  unfold fullPairsM at h
  suffices hgen : ∀ (l : CapMap) (acc res : List (Workshop × Var)),
      optFold
          (fun acc e =>
            if fullGet fm e.1 then
              match alookup zm e.1.1 with
              | none => none
              | some zw =>
                if zw = z then
                  match xLookup students cm (s, (e.1.1, e.1.2.1, 0)) with
                  | none => none
                  | some xv => some (acc ++ [(e.1.1, xv)])
                else some acc
            else some acc)
          l acc = some res →
        res = acc ++ l.filterMap (fun e =>
          if fullGet fm e.1 then
            match alookup zm e.1.1 with
            | none => none
            | some zw =>
              if zw = z then some (e.1.1, (s, (e.1.1, e.1.2.1, 0))) else none
          else none) by
    have := hgen cm [] fp h
    simpa using this
  clear h
  intro l
  induction l with
  | nil =>
    intro acc res h
    rw [optFold_nil, Option.some_inj] at h
    simp [h.symm]
  | cons e rest ih =>
    intro acc res h
    rw [optFold_cons] at h
    rw [List.filterMap_cons]
    by_cases hf : fullGet fm e.1
    · rw [if_pos hf] at h ⊢
      cases hz : alookup zm e.1.1 with
      | none => rw [hz] at h; exact absurd h (by simp)
      | some zw =>
        rw [hz] at h
        dsimp only at h ⊢
        by_cases hzz : zw = z
        · rw [if_pos hzz] at h ⊢
          cases hx : xLookup students cm (s, (e.1.1, e.1.2.1, 0)) with
          | none => rw [hx] at h; exact absurd h (by simp)
          | some xv =>
            rw [hx] at h
            dsimp only at h
            rw [xLookup_eq students cm _ xv hx] at h
            have := ih _ res h
            rw [this, List.append_assoc]
            rfl
        · rw [if_neg hzz] at h ⊢
          exact ih acc res h
    · rw [if_neg hf] at h ⊢
      exact ih acc res h

/-- The spec's weighted zone sum: chosen half-day slots of zone `z` count 1,
chosen full-day slots count 2, each counted at its own slot variable. -/
def weightedZoneSum (zm : List (Workshop × Zone)) (cm : CapMap) (fm : FullMap)
    (s : Student) (z : Zone) (val : Var → Int) : Int :=
  (cm.filterMap (fun e =>
      if fullGet fm e.1 = false ∧ alookup zm e.1.1 = some z then
        some (val (s, e.1))
      else none)).sum
  + 2 * (cm.filterMap (fun e =>
      if fullGet fm e.1 = true ∧ alookup zm e.1.1 = some z then
        some (val (s, e.1))
      else none)).sum

theorem sum_filterMap_congr {α β γ : Type} (l : List α) (f : α → Option β)
    (g : α → Option γ) (vb : β → Int) (vc : γ → Int)
    (h : ∀ a ∈ l, (f a).map vb = (g a).map vc) :
    ((l.filterMap f).map vb).sum = ((l.filterMap g).map vc).sum := by
  induction l with
  | nil => simp
  | cons a rest ih =>
    have hrest : ∀ x ∈ rest, (f x).map vb = (g x).map vc := by
      intro x hx
      exact h x (List.mem_cons_of_mem a hx)
    have ha := h a (List.mem_cons_self a rest)
    rw [List.filterMap_cons, List.filterMap_cons]
    cases hf : f a with
    | none =>
      rw [hf] at ha
      cases hg : g a with
      | none =>
        dsimp only
        exact ih hrest
      | some c =>
        rw [hg] at ha
        simp at ha
    | some b =>
      rw [hf] at ha
      cases hg : g a with
      | none =>
        rw [hg] at ha
        simp at ha
      | some c =>
        rw [hg] at ha
        simp only [Option.map_some'] at ha
        dsimp only
        rw [List.map_cons, List.map_cons, List.sum_cons, List.sum_cons,
          ih hrest, Option.some_inj.mp ha]

theorem halfPairs_sum (zm : List (Workshop × Zone)) (cm : CapMap)
    (fm : FullMap) (s : Student) (z : Zone) (val : Var → Int) :
    ((cm.filterMap (fun e =>
        if fullGet fm e.1 then none
        else
          match alookup zm e.1.1 with
          | none => none
          | some zw => if zw = z then some (e.1.1, (s, e.1)) else none)).map
      (fun p => val p.2)).sum
      = (cm.filterMap (fun e =>
          if fullGet fm e.1 = false ∧ alookup zm e.1.1 = some z then
            some (val (s, e.1))
          else none)).sum := by
  have := sum_filterMap_congr cm
    (fun e =>
      if fullGet fm e.1 then none
      else
        match alookup zm e.1.1 with
        | none => none
        | some zw => if zw = z then some (e.1.1, (s, e.1)) else none)
    (fun e =>
      if fullGet fm e.1 = false ∧ alookup zm e.1.1 = some z then
        some (val (s, e.1))
      else none)
    (fun p => val p.2) id ?_
  · simpa using this
  · intro e _
    by_cases hf : fullGet fm e.1
    · simp [hf]
    · cases hz : alookup zm e.1.1 with
      | none => simp [hf, hz]
      | some zw =>
        by_cases hzz : zw = z
        · simp [hf, hz, hzz, Bool.eq_false_iff.mpr hf]
        · simp [hf, hz, hzz, fun h : alookup zm e.1.1 = some z => hzz
            (by rw [hz] at h; exact Option.some_inj.mp h)]

theorem fullPairs_sum (zm : List (Workshop × Zone)) (cm : CapMap)
    (fm : FullMap) (s : Student) (z : Zone) (val : Var → Int)
    (h0 : ∀ k ∈ cm.map Prod.fst, fullGet fm k = true → k.2.2 = 0) :
    ((cm.filterMap (fun e =>
        if fullGet fm e.1 then
          match alookup zm e.1.1 with
          | none => none
          | some zw =>
            if zw = z then some (e.1.1, (s, (e.1.1, e.1.2.1, 0))) else none
        else none)).map
      (fun p => val p.2)).sum
      = (cm.filterMap (fun e =>
          if fullGet fm e.1 = true ∧ alookup zm e.1.1 = some z then
            some (val (s, e.1))
          else none)).sum := by
  have := sum_filterMap_congr cm
    (fun e =>
      if fullGet fm e.1 then
        match alookup zm e.1.1 with
        | none => none
        | some zw =>
          if zw = z then some (e.1.1, (s, (e.1.1, e.1.2.1, 0))) else none
      else none)
    (fun e =>
      if fullGet fm e.1 = true ∧ alookup zm e.1.1 = some z then
        some (val (s, e.1))
      else none)
    (fun p => val p.2) id ?_
  · simpa using this
  · intro e he
    by_cases hf : fullGet fm e.1
    · cases hz : alookup zm e.1.1 with
      | none => simp [hf, hz]
      | some zw =>
        by_cases hzz : zw = z
        · have he0 : e.1.2.2 = 0 :=
            h0 e.1 (List.mem_map.mpr ⟨e, he, rfl⟩) hf
          have hkey : (e.1.1, e.1.2.1, (0 : Nat)) = e.1 := by
            rw [← he0]
          simp [hf, hz, hzz, hkey]
        · simp [hf, hz, hzz, fun h : alookup zm e.1.1 = some z => hzz
            (by rw [hz] at h; exact Option.some_inj.mp h)]
    · simp [hf]

theorem halfPair_inv (zm : List (Workshop × Zone)) (fm : FullMap) (s : Student)
    (z : Zone) (e : SlotKey × Int) (pr : Workshop × Var)
    (h : (if fullGet fm e.1 then none
      else
        match alookup zm e.1.1 with
        | none => none
        | some zw => if zw = z then some (e.1.1, (s, e.1)) else none)
      = some pr) :
    alookup zm e.1.1 = some z ∧ pr.1 = e.1.1 := by
  by_cases hf : fullGet fm e.1
  · rw [if_pos hf] at h
    exact absurd h (by simp)
  · rw [if_neg hf] at h
    cases hz : alookup zm e.1.1 with
    | none => rw [hz] at h; exact absurd h (by simp)
    | some zw =>
      rw [hz] at h
      dsimp only at h
      by_cases hzz : zw = z
      · rw [if_pos hzz] at h
        refine ⟨by rw [hzz], ?_⟩
        rw [← Option.some_inj.mp h]
      · rw [if_neg hzz] at h
        exact absurd h (by simp)

theorem fullPair_inv (zm : List (Workshop × Zone)) (fm : FullMap) (s : Student)
    (z : Zone) (e : SlotKey × Int) (pr : Workshop × Var)
    (h : (if fullGet fm e.1 then
        match alookup zm e.1.1 with
        | none => none
        | some zw =>
          if zw = z then some (e.1.1, (s, (e.1.1, e.1.2.1, 0))) else none
      else none) = some pr) :
    alookup zm e.1.1 = some z ∧ pr.1 = e.1.1 := by
  by_cases hf : fullGet fm e.1
  · rw [if_pos hf] at h
    cases hz : alookup zm e.1.1 with
    | none => rw [hz] at h; exact absurd h (by simp)
    | some zw =>
      rw [hz] at h
      dsimp only at h
      by_cases hzz : zw = z
      · rw [if_pos hzz] at h
        refine ⟨by rw [hzz], ?_⟩
        rw [← Option.some_inj.mp h]
      · rw [if_neg hzz] at h
        exact absurd h (by simp)
  · rw [if_neg hf] at h
    exact absurd h (by simp)

/-- Structure of a successfully built zone-quota constraint group. -/
theorem mkZoneC_eq (students : List Student) (zm : List (Workshop × Zone))
    (cost : CostMap) (cm : CapMap) (fm : FullMap) (s : Student) (z : Zone)
    (zc : ZoneC) (h : mkZoneC students zm cost cm fm s z = some zc) :
    ∃ hp fp, halfPairsM zm cm fm s z = some hp
      ∧ fullPairsM students zm cm fm s z = some fp
      ∧ zc = {
          s := s, z := z,
          firstH := (hp.filter (fun p =>
            isRank1 cost s ((hp ++ fp).map Prod.fst) p.1)).map Prod.snd,
          firstF := (fp.filter (fun p =>
            isRank1 cost s ((hp ++ fp).map Prod.fst) p.1)).map Prod.snd,
          secondH := (hp.filter (fun p =>
            isRank2 cost s ((hp ++ fp).map Prod.fst) p.1)).map Prod.snd,
          secondF := (fp.filter (fun p =>
            isRank2 cost s ((hp ++ fp).map Prod.fst) p.1)).map Prod.snd,
          otherH := (hp.filter (fun p =>
            !isRank1 cost s ((hp ++ fp).map Prod.fst) p.1
              && !isRank2 cost s ((hp ++ fp).map Prod.fst) p.1)).map Prod.snd,
          otherF := (fp.filter (fun p =>
            !isRank1 cost s ((hp ++ fp).map Prod.fst) p.1
              && !isRank2 cost s ((hp ++ fp).map Prod.fst) p.1)).map Prod.snd,
          allowRandom := if ((hp ++ fp).map Prod.fst).any
              (isRank2 cost s ((hp ++ fp).map Prod.fst)) then 0 else 1 } := by
  unfold mkZoneC at h
  cases hh : halfPairsM zm cm fm s z with
  | none => rw [hh] at h; exact absurd h (by simp)
  | some hp =>
    rw [hh] at h
    dsimp only at h
    cases hf : fullPairsM students zm cm fm s z with
    | none => rw [hf] at h; exact absurd h (by simp)
    | some fp =>
      rw [hf] at h
      dsimp only at h
      exact ⟨hp, fp, rfl, rfl, (Option.some_inj.mp h).symm⟩

/-- The wildcard allowance tests exactly for a distinct rank-2 choice in the
zone. -/
theorem rank2_any_iff (students : List Student) (zm : List (Workshop × Zone))
    (cost : CostMap) (cm : CapMap) (fm : FullMap) (s : Student) (z : Zone)
    (hp fp : List (Workshop × Var))
    (hhp : halfPairsM zm cm fm s z = some hp)
    (hfp : fullPairsM students zm cm fm s z = some fp) :
    ((hp ++ fp).map Prod.fst).any (isRank2 cost s ((hp ++ fp).map Prod.fst))
        = true
      ↔ ∃ e ∈ cm, alookup zm e.1.1 = some z ∧ costGet999 cost s e.1.1 = 2 := by
  have hpe := halfPairsM_eq zm cm fm s z hp hhp
  have fpe := fullPairsM_eq students zm cm fm s z fp hfp
  constructor
  · intro h
    obtain ⟨w, hw, hr2⟩ := List.any_eq_true.mp h
    have hcost : costGet999 cost s w = 2 := by
      unfold isRank2 at hr2
      simp only [Bool.and_eq_true, decide_eq_true_eq] at hr2
      exact hr2.1.2
    obtain ⟨pr, hpr, hprw⟩ := List.mem_map.mp hw
    rcases List.mem_append.mp hpr with hmem | hmem
    · rw [hpe] at hmem
      obtain ⟨e, he, heq⟩ := List.mem_filterMap.mp hmem
      obtain ⟨hz, hw1⟩ := halfPair_inv zm fm s z e pr heq
      exact ⟨e, he, hz, by rw [← hw1, hprw]; exact hcost⟩
    · rw [fpe] at hmem
      obtain ⟨e, he, heq⟩ := List.mem_filterMap.mp hmem
      obtain ⟨hz, hw1⟩ := fullPair_inv zm fm s z e pr heq
      exact ⟨e, he, hz, by rw [← hw1, hprw]; exact hcost⟩
  · rintro ⟨e, he, hz, hcost⟩
    have hwmem : e.1.1 ∈ (hp ++ fp).map Prod.fst := by
      by_cases hf : fullGet fm e.1
      · have : (e.1.1, (s, (e.1.1, e.1.2.1, (0 : Nat)))) ∈ fp := by
          rw [fpe]
          apply List.mem_filterMap.mpr
          exact ⟨e, he, by rw [if_pos hf, hz]; dsimp only; rw [if_pos rfl]⟩
        exact List.mem_map.mpr ⟨_, List.mem_append.mpr (Or.inr this), rfl⟩
      · have : (e.1.1, (s, e.1)) ∈ hp := by
          rw [hpe]
          apply List.mem_filterMap.mpr
          exact ⟨e, he, by rw [if_neg hf, hz]; dsimp only; rw [if_pos rfl]⟩
        exact List.mem_map.mpr ⟨_, List.mem_append.mpr (Or.inl this), rfl⟩
    apply List.any_eq_true.mpr
    refine ⟨e.1.1, hwmem, ?_⟩
    unfold isRank2 isRank1
    have h1 : decide (e.1.1 ∈ (hp ++ fp).map Prod.fst) = true :=
      decide_eq_true hwmem
    have h2 : decide (costGet999 cost s e.1.1 = 2) = true := decide_eq_true hcost
    have h3 : decide (costGet999 cost s e.1.1 = 1) = false := by
      apply decide_eq_false
      rw [hcost]
      simp
    rw [h1, h2, h3]
    rfl

theorem buildManualRows_students (zm : List (Workshop × Zone))
    (preAssign : List (Student × List SlotKey)) (rows : List Row)
    (h : buildManualRows zm preAssign = some rows) :
    ∀ r ∈ rows, r.student ∈ preAssign.map Prod.fst := by
  unfold buildManualRows at h
  have hchain := optFold_chain
    (f := fun acc (p : Student × List SlotKey) =>
      optFold
        (fun acc' k =>
          match alookup zm k.1 with
          | none => none
          | some z => some (acc' ++ [(⟨p.1, z, k.2.1, k.2.2, k.1⟩ : Row)]))
        p.2 acc)
    (l := preAssign)
    (fun acc acc' => ∀ r ∈ acc', r ∈ acc ∨ r.student ∈ preAssign.map Prod.fst)
    (fun _ r hr => Or.inl hr)
    (fun a b c hab hbc r hr => by
      rcases hbc r hr with h1 | h1
      · exact hab r h1
      · exact Or.inr h1)
    ?_ h
  · intro r hr
    rcases hchain r hr with h1 | h1
    · exact absurd h1 (by simp)
    · exact h1
  · intro acc p acc' hp hstep
    have hinner := optFold_chain
      (f := fun acc' (k : SlotKey) =>
        match alookup zm k.1 with
        | none => none
        | some z => some (acc' ++ [(⟨p.1, z, k.2.1, k.2.2, k.1⟩ : Row)]))
      (l := p.2)
      (fun b c => ∀ r ∈ c, r ∈ b ∨ r.student = p.1)
      (fun _ r hr => Or.inl hr)
      (fun a b c hab hbc r hr => by
        rcases hbc r hr with h1 | h1
        · exact hab r h1
        · exact Or.inr h1)
      ?_ hstep
    · intro r hr
      rcases hinner r hr with h1 | h1
      · exact Or.inl h1
      · exact Or.inr (h1 ▸ List.mem_map.mpr ⟨p, hp, rfl⟩)
    · intro b k c _ hk
      dsimp only at hk
      cases hz : alookup zm k.1 with
      | none => rw [hz] at hk; exact absurd hk (by simp)
      | some z =>
        rw [hz] at hk
        dsimp only at hk
        rw [← Option.some_inj.mp hk]
        intro r hr
        rcases List.mem_append.mp hr with h1 | h1
        · exact Or.inl h1
        · right
          have : r = ⟨p.1, z, k.2.1, k.2.2, k.1⟩ := by simpa using h1
          rw [this]

theorem mainEarly_not_forced (inp : MainInput) (s0 : Student)
    (h : s0 ∈ mainEarly inp) : s0 ∉ inp.preAssign.map Prod.fst := by
  unfold mainEarly at h
  have h1 := (List.mem_filter.mp h).1
  unfold mainAllStudents at h1
  have h2 := (List.mem_filter.mp h1).2
  intro hmem
  rw [decide_eq_true_eq] at h2
  exact h2 (by simpa using hmem)

theorem zoneUnits_eq_zero (rows : List Row) (s : Student) (z : Zone)
    (h : ∀ r ∈ rows, r.student ≠ s) : zoneUnits rows s z = 0 := by
  unfold zoneUnits
  have : rows.filter (fun r => decide (r.student = s ∧ r.zone = z)) = [] := by
    apply List.filter_eq_nil_iff.mpr
    intro r hr
    simp [h r hr]
  rw [this]
  rfl

/-- Claim C4: the zone-quota constraint family of the exact solver.  For each
cohort student and zone, `TwoPerZone` pins the weighted sum of chosen slots in
the zone (half-day weight 1, full-day weight 2) to exactly 2 — the cohort's
already-consumed quota being 0, because pre-assigned participants are excluded
from the exact cohort and hold all manual rows (fourth conjunct);
`UseSeconds` forces rank-2-tier slots to cover any rank-1 shortfall; and
`RandLimit` caps unranked-tier usage at one unit exactly when the student
supplied no distinct rank-2 workshop choice in the zone, at zero otherwise.
Stated under the data-model precondition that full-day-flagged capacity
entries sit at session index 0. -/
theorem zone_quota_tier_structure (students : List Student)
    (zm : List (Workshop × Zone)) (cost : CostMap) (cm : CapMap) (fm : FullMap)
    (s : Student) (z : Zone) (zc : ZoneC) (val : Var → Int)
    (hmk : mkZoneC students zm cost cm fm s z = some zc)
    (h0 : ∀ k ∈ cm.map Prod.fst, fullGet fm k = true → k.2.2 = 0) :
    (fsz val zc + ssz val zc + osz val zc = weightedZoneSum zm cm fm s z val)
    ∧ (zc.allowRandom =
        if ∃ e ∈ cm, alookup zm e.1.1 = some z ∧ costGet999 cost s e.1.1 = 2
        then 0 else 1)
    ∧ (zoneSat val zc ↔
        weightedZoneSum zm cm fm s z val = 2
          ∧ ssz val zc ≥ 2 - fsz val zc
          ∧ osz val zc ≤
            (if ∃ e ∈ cm, alookup zm e.1.1 = some z ∧ costGet999 cost s e.1.1 = 2
             then 0 else 1))
    ∧ (∀ (inp : MainInput) (manual : List Row) (s0 : Student) (z0 : Zone),
        buildManualRows (build_zone_map inp.prefs) inp.preAssign = some manual →
        s0 ∈ mainEarly inp → zoneUnits manual s0 z0 = 0) := by
  obtain ⟨hp, fp, hhp, hfp, hzc⟩ :=
    mkZoneC_eq students zm cost cm fm s z zc hmk
  have hab : ∀ p : Workshop × Var,
      isRank1 cost s ((hp ++ fp).map Prod.fst) p.1 = true →
        isRank2 cost s ((hp ++ fp).map Prod.fst) p.1 = false := by
    intro p h1
    unfold isRank2
    rw [h1]
    simp
  have hparth := sum_filter_partition3 hp
    (fun p => isRank1 cost s ((hp ++ fp).map Prod.fst) p.1)
    (fun p => isRank2 cost s ((hp ++ fp).map Prod.fst) p.1)
    (fun p => val p.2) (fun p => hab p)
  have hpartf := sum_filter_partition3 fp
    (fun p => isRank1 cost s ((hp ++ fp).map Prod.fst) p.1)
    (fun p => isRank2 cost s ((hp ++ fp).map Prod.fst) p.1)
    (fun p => val p.2) (fun p => hab p)
  have e1 : (hp.map (fun p => val p.2)).sum
      = (cm.filterMap (fun e =>
          if fullGet fm e.1 = false ∧ alookup zm e.1.1 = some z then
            some (val (s, e.1))
          else none)).sum := by
    rw [halfPairsM_eq zm cm fm s z hp hhp]
    exact halfPairs_sum zm cm fm s z val
  have e2 : (fp.map (fun p => val p.2)).sum
      = (cm.filterMap (fun e =>
          if fullGet fm e.1 = true ∧ alookup zm e.1.1 = some z then
            some (val (s, e.1))
          else none)).sum := by
    rw [fullPairsM_eq students zm cm fm s z fp hfp]
    exact fullPairs_sum zm cm fm s z val h0
  have hsum : fsz val zc + ssz val zc + osz val zc
      = weightedZoneSum zm cm fm s z val := by
    subst hzc
    unfold fsz ssz osz sumV weightedZoneSum
    simp only [List.map_map]
    have ch : ∀ q : (Workshop × Var) → Bool,
        (List.map (val ∘ Prod.snd) (hp.filter q)).sum
          = ((hp.filter q).map (fun p => val p.2)).sum := by
      intro q
      rfl
    have cf : ∀ q : (Workshop × Var) → Bool,
        (List.map (val ∘ Prod.snd) (fp.filter q)).sum
          = ((fp.filter q).map (fun p => val p.2)).sum := by
      intro q
      rfl
    rw [ch, ch, ch, cf, cf, cf]
    dsimp only at hparth hpartf
    omega
  have hrand : zc.allowRandom =
      if ∃ e ∈ cm, alookup zm e.1.1 = some z ∧ costGet999 cost s e.1.1 = 2
      then 0 else 1 := by
    subst hzc
    dsimp only
    by_cases hex : ∃ e ∈ cm, alookup zm e.1.1 = some z
        ∧ costGet999 cost s e.1.1 = 2
    · rw [if_pos hex,
        if_pos ((rank2_any_iff students zm cost cm fm s z hp fp hhp hfp).mpr hex)]
    · rw [if_neg hex, if_neg (fun hany => hex
        ((rank2_any_iff students zm cost cm fm s z hp fp hhp hfp).mp hany))]
  refine ⟨hsum, hrand, ?_, ?_⟩
  · unfold zoneSat
    rw [hsum, hrand]
  · intro inp manual s0 z0 hman hearly
    apply zoneUnits_eq_zero
    intro r hr heq
    have hmem := buildManualRows_students _ _ _ hman r hr
    exact mainEarly_not_forced inp s0 hearly (heq ▸ hmem)

def zmW4 : List (Workshop × Zone) := [("A", "Z"), ("B", "Z")]

def costW4 : CostMap := [(("s1", "A"), 1), (("s1", "B"), 2)]

def cmW4 : CapMap := [(("A", "d", 1), 1), (("B", "d", 2), 1)]

def fmW4 : FullMap := [(("A", "d", 1), false), (("B", "d", 2), false)]

def zcW4 : ZoneC :=
  ⟨"s1", "Z", [("s1", ("A", "d", 1))], [], [("s1", ("B", "d", 2))], [], [], [], 0⟩

def val1 : Var → Int := fun _ => 1

theorem zone_quota_tier_structure_witness :
    fsz val1 zcW4 + ssz val1 zcW4 + osz val1 zcW4
        = weightedZoneSum zmW4 cmW4 fmW4 "s1" "Z" val1
    ∧ zcW4.allowRandom =
        (if ∃ e ∈ cmW4, alookup zmW4 e.1.1 = some "Z"
            ∧ costGet999 costW4 "s1" e.1.1 = 2 then 0 else 1) :=
  ⟨(zone_quota_tier_structure ["s1"] zmW4 costW4 cmW4 fmW4 "s1" "Z" zcW4 val1
      (by decide) (by decide)).1,
   (zone_quota_tier_structure ["s1"] zmW4 costW4 cmW4 fmW4 "s1" "Z" zcW4 val1
      (by decide) (by decide)).2.1⟩

/-! ### Decomposition of `main` and the extraction loop (claims C2, C3, C9) -/

theorem solve_group_late_eq (solver : Problem → SolveResult)
    (students : List Student) (zm : List (Workshop × Zone)) (cost : CostMap)
    (cm : CapMap) (fm : FullMap) (days : List Day) :
    solve_group solver students zm cost cm fm days true
      = greedy_assign students zm cost cm fm days := by
  unfold solve_group
  by_cases he : students.isEmpty
  · rw [if_pos he]
    have : students = [] := List.isEmpty_iff.mp he
    subst this
    rfl
  · rw [if_neg he, if_pos rfl]

theorem solve_group_exact_eq (solver : Problem → SolveResult)
    (students : List Student) (zm : List (Workshop × Zone)) (cost : CostMap)
    (cm : CapMap) (fm : FullMap) (days : List Day) (r1 : List Row)
    (cm1 : CapMap)
    (h : solve_group solver students zm cost cm fm days false = some (r1, cm1)) :
    (students = [] ∧ r1 = [] ∧ cm1 = cm)
    ∨ ∃ prob, buildProblem students zm cost cm fm days = some prob
        ∧ extractRows zm (varList students cm) ((solver prob).val) cm
            = some (r1, cm1) := by
  unfold solve_group at h
  by_cases he : students.isEmpty
  · rw [if_pos he] at h
    have h2 : (([], cm) : List Row × CapMap) = (r1, cm1) := Option.some_inj.mp h
    exact Or.inl ⟨List.isEmpty_iff.mp he, (congrArg Prod.fst h2).symm,
      (congrArg Prod.snd h2).symm⟩
  · rw [if_neg he, if_neg (by simp : ¬(false = true))] at h
    cases hb : buildProblem students zm cost cm fm days with
    | none => rw [hb] at h; exact absurd h (by simp)
    | some prob =>
      rw [hb] at h
      dsimp only at h
      exact Or.inr ⟨prob, rfl, h⟩

/-- Decomposition of a completed `main` run into its three row blocks. -/
theorem mainRun_eq (solver : Problem → SolveResult) (inp : MainInput)
    (rows : List Row) (h : mainRun solver inp = some rows) :
    ∃ manual r1 cm1 r2 cm2,
      buildManualRows (build_zone_map inp.prefs) inp.preAssign = some manual
      ∧ solve_group solver (mainEarly inp) (build_zone_map inp.prefs)
          (build_costs inp.prefs) (buildCapFull inp.grp inp.preAssign).1
          (buildCapFull inp.grp inp.preAssign).2 (mainDays inp) false
          = some (r1, cm1)
      ∧ solve_group solver (mainMid inp ++ mainLate inp)
          (build_zone_map inp.prefs) (build_costs inp.prefs) cm1
          (buildCapFull inp.grp inp.preAssign).2 (mainDays inp) true
          = some (r2, cm2)
      ∧ rows = manual ++ r1 ++ r2 := by
  unfold mainRun at h
  dsimp only at h
  cases hm : buildManualRows (build_zone_map inp.prefs) inp.preAssign with
  | none => rw [hm] at h; exact absurd h (by simp)
  | some manual =>
    rw [hm] at h
    dsimp only at h
    cases h1 : solve_group solver (mainEarly inp) (build_zone_map inp.prefs)
        (build_costs inp.prefs) (buildCapFull inp.grp inp.preAssign).1
        (buildCapFull inp.grp inp.preAssign).2 (mainDays inp) false with
    | none => rw [h1] at h; exact absurd h (by simp)
    | some pr1 =>
      rw [h1] at h
      dsimp only at h
      cases h2 : solve_group solver (mainMid inp ++ mainLate inp)
          (build_zone_map inp.prefs) (build_costs inp.prefs) pr1.2
          (buildCapFull inp.grp inp.preAssign).2 (mainDays inp) true with
      | none =>
        rw [h2] at h
        exact absurd h (by simp)
      | some pr2 =>
        rw [h2] at h
        dsimp only at h
        exact ⟨manual, pr1.1, pr1.2, pr2.1, pr2.2, rfl, rfl, h2,
          (Option.some_inj.mp h).symm⟩

/-- A completed manual-row build in closed form (every zone lookup succeeded,
so the `getD` default is never reached). -/
theorem buildManualRows_eq (zm : List (Workshop × Zone))
    (preAssign : List (Student × List SlotKey)) (rows : List Row)
    (h : buildManualRows zm preAssign = some rows) :
    rows = preAssign.flatMap (fun p => p.2.map (fun k =>
      (⟨p.1, (alookup zm k.1).getD "", k.2.1, k.2.2, k.1⟩ : Row))) := by
  unfold buildManualRows at h
  suffices hgen : ∀ (l : List (Student × List SlotKey)) (acc res : List Row),
      optFold
        (fun acc (p : Student × List SlotKey) =>
          optFold
            (fun acc' k =>
              match alookup zm k.1 with
              | none => none
              | some z => some (acc' ++ [(⟨p.1, z, k.2.1, k.2.2, k.1⟩ : Row)]))
            p.2 acc)
        l acc = some res →
      res = acc ++ l.flatMap (fun p => p.2.map (fun k =>
        (⟨p.1, (alookup zm k.1).getD "", k.2.1, k.2.2, k.1⟩ : Row))) by
    have := hgen preAssign [] rows h
    simpa using this
  have hinner : ∀ (s0 : Student) (slots : List SlotKey) (acc res : List Row),
      optFold
        (fun acc' k =>
          match alookup zm k.1 with
          | none => none
          | some z => some (acc' ++ [(⟨s0, z, k.2.1, k.2.2, k.1⟩ : Row)]))
        slots acc = some res →
      res = acc ++ slots.map (fun k =>
        (⟨s0, (alookup zm k.1).getD "", k.2.1, k.2.2, k.1⟩ : Row)) := by
    intro s0 slots
    induction slots with
    | nil =>
      intro acc res h
      rw [optFold_nil, Option.some_inj] at h
      simp [h.symm]
    | cons k rest ih =>
      intro acc res h
      rw [optFold_cons] at h
      cases hz : alookup zm k.1 with
      | none => rw [hz] at h; exact absurd h (by simp)
      | some z =>
        rw [hz] at h
        dsimp only at h
        have := ih _ res h
        rw [this, List.map_cons, List.append_assoc, hz]
        rfl
  intro l
  induction l with
  | nil =>
    intro acc res h
    rw [optFold_nil, Option.some_inj] at h
    simp [h.symm]
  | cons p rest ih =>
    intro acc res h
    rw [optFold_cons] at h
    cases hstep : optFold
        (fun acc' k =>
          match alookup zm k.1 with
          | none => none
          | some z => some (acc' ++ [(⟨p.1, z, k.2.1, k.2.2, k.1⟩ : Row)]))
        p.2 acc with
    | none => rw [hstep] at h; exact absurd h (by simp)
    | some acc1 =>
      rw [hstep] at h
      dsimp only at h
      have h1 := hinner p.1 p.2 acc acc1 hstep
      have h2 := ih acc1 res h
      rw [h2, h1, List.flatMap_cons, List.append_assoc]

/-- A completed extraction loop in closed form: one row per variable valued 1,
in variable order. -/
theorem extractRows_rows (zm : List (Workshop × Zone)) (vars : List Var)
    (val : Var → Int) (cm : CapMap) (rows : List Row) (cm' : CapMap)
    (h : extractRows zm vars val cm = some (rows, cm')) :
    rows = (vars.filter (fun v => val v = 1)).map (fun v =>
      (⟨v.1, (alookup zm v.2.1).getD "", v.2.2.1, v.2.2.2, v.2.1⟩ : Row)) := by
  unfold extractRows at h
  suffices hgen : ∀ (l : List Var) (acc : List Row × CapMap)
      (res : List Row × CapMap),
      optFold
        (fun (acc : List Row × CapMap) v =>
          if val v = 1 then
            match alookup zm v.2.1 with
            | none => none
            | some z =>
              some (acc.1 ++ [(⟨v.1, z, v.2.2.1, v.2.2.2, v.2.1⟩ : Row)],
                    capDec acc.2 v.2)
          else some acc)
        l acc = some res →
      res.1 = acc.1 ++ (l.filter (fun v => val v = 1)).map (fun v =>
        (⟨v.1, (alookup zm v.2.1).getD "", v.2.2.1, v.2.2.2, v.2.1⟩ : Row)) by
    cases hf : optFold
        (fun (acc : List Row × CapMap) v =>
          if val v = 1 then
            match alookup zm v.2.1 with
            | none => none
            | some z =>
              some (acc.1 ++ [(⟨v.1, z, v.2.2.1, v.2.2.2, v.2.1⟩ : Row)],
                    capDec acc.2 v.2)
          else some acc)
        vars ([], cm) with
    | none => rw [hf] at h; exact absurd h (by simp)
    | some res =>
      rw [hf] at h
      dsimp only at h
      have h2 := hgen vars ([], cm) res hf
      rw [Option.some_inj.mp h] at h2
      simpa using h2
  intro l
  induction l with
  | nil =>
    intro acc res h
    rw [optFold_nil, Option.some_inj] at h
    simp [h.symm]
  | cons v rest ih =>
    intro acc res h
    rw [optFold_cons] at h
    by_cases hv : val v = 1
    · rw [if_pos hv] at h
      cases hz : alookup zm v.2.1 with
      | none => rw [hz] at h; exact absurd h (by simp)
      | some z =>
        rw [hz] at h
        dsimp only at h
        have := ih _ res h
        rw [List.filter_cons_of_pos (by simpa using hv), List.map_cons, this,
          List.append_assoc, hz]
        rfl
    · rw [if_neg hv] at h
      have := ih _ res h
      rw [List.filter_cons_of_neg (by simpa using hv), this]

theorem cnt_nil (k : SlotKey) : cnt [] k = 0 := rfl

theorem cnt_singleton (s : Student) (z : Zone) (d : Day) (t : Nat)
    (w : Workshop) (k : SlotKey) :
    cnt [⟨s, z, d, t, w⟩] k = if (w, d, t) = k then 1 else 0 := by
  unfold cnt
  by_cases h : (w, d, t) = k <;> simp [h]

/-- Capacity accounting of the extraction loop: every emitted row decrements
its own slot once, and the key set of the capacity table is unchanged. -/
theorem extractRows_cap (zm : List (Workshop × Zone)) (vars : List Var)
    (val : Var → Int) (cm : CapMap) (rows : List Row) (cm' : CapMap)
    (hvars : ∀ v ∈ vars, v.2 ∈ cm.map Prod.fst)
    (h : extractRows zm vars val cm = some (rows, cm')) :
    cm'.map Prod.fst = cm.map Prod.fst
      ∧ ∀ k, capAt cm' k = capAt cm k - (cnt rows k : Int) := by
  unfold extractRows at h
  cases hf : optFold
      (fun (acc : List Row × CapMap) v =>
        if val v = 1 then
          match alookup zm v.2.1 with
          | none => none
          | some z =>
            some (acc.1 ++ [(⟨v.1, z, v.2.2.1, v.2.2.2, v.2.1⟩ : Row)],
                  capDec acc.2 v.2)
        else some acc)
      vars ([], cm) with
  | none => rw [hf] at h; exact absurd h (by simp)
  | some res =>
    rw [hf] at h
    dsimp only at h
    have hres := Option.some_inj.mp h
    subst hres
    have hchain := optFold_chain
      (f := fun (acc : List Row × CapMap) v =>
        if val v = 1 then
          match alookup zm v.2.1 with
          | none => none
          | some z =>
            some (acc.1 ++ [(⟨v.1, z, v.2.2.1, v.2.2.2, v.2.1⟩ : Row)],
                  capDec acc.2 v.2)
        else some acc)
      (l := vars)
      (fun (a b : List Row × CapMap) =>
        b.2.map Prod.fst = a.2.map Prod.fst
          ∧ ∃ new, b.1 = a.1 ++ new
            ∧ (a.2.map Prod.fst = cm.map Prod.fst →
                ∀ k, capAt b.2 k = capAt a.2 k - (cnt new k : Int)))
      (fun a => ⟨rfl, [], by simp, fun _ k => by simp [cnt_nil]⟩)
      ?_ ?_ hf
    · obtain ⟨hkeys, new, hrows, hcap⟩ := hchain
      dsimp only at hkeys hrows
      simp only [List.nil_append] at hrows
      subst hrows
      refine ⟨hkeys, fun k => ?_⟩
      have h2 := hcap rfl k
      dsimp only at h2
      exact h2
    · intro a b c hab hbc
      obtain ⟨hk1, n1, hr1, hc1⟩ := hab
      obtain ⟨hk2, n2, hr2, hc2⟩ := hbc
      refine ⟨hk2.trans hk1, n1 ++ n2, by rw [hr2, hr1, List.append_assoc], ?_⟩
      intro ha k
      have e1 := hc1 ha k
      have e2 := hc2 (hk1.trans ha) k
      rw [cnt_append]
      push_cast
      omega
    · intro a v b hv hstep
      dsimp only at hstep
      by_cases h1 : val v = 1
      · rw [if_pos h1] at hstep
        cases hz : alookup zm v.2.1 with
        | none => rw [hz] at hstep; exact absurd hstep (by simp)
        | some z =>
          rw [hz] at hstep
          dsimp only at hstep
          rw [← Option.some_inj.mp hstep]
          refine ⟨capDec_keys _ _, [⟨v.1, z, v.2.2.1, v.2.2.2, v.2.1⟩],
            rfl, ?_⟩
          intro ha k
          rw [cnt_singleton]
          have hv2 : (v.2.1, v.2.2.1, v.2.2.2) = v.2 := rfl
          by_cases hk : (v.2.1, v.2.2.1, v.2.2.2) = k
          · rw [if_pos hk]
            rw [← hk, hv2]
            rw [capAt_capDec_same a.2 v.2 (by
              rw [ha]
              exact hvars v hv)]
            push_cast
            ring
          · rw [if_neg hk]
            rw [capAt_capDec_other a.2 v.2 k (fun hx => hk hx.symm)]
            push_cast
            ring
      · rw [if_neg h1] at hstep
        rw [← Option.some_inj.mp hstep]
        exact ⟨rfl, [], by simp, fun _ k => by simp [cnt_nil]⟩

theorem dedupFirst_nodup {α : Type} [DecidableEq α] (l : List α) :
    (dedupFirst l).Nodup := by
  unfold dedupFirst
  suffices h : ∀ acc : List α, acc.Nodup →
      (l.foldl (fun acc x => if x ∈ acc then acc else acc ++ [x]) acc).Nodup by
    exact h [] List.nodup_nil
  induction l with
  | nil => intro acc ha; simpa using ha
  | cons x rest ih =>
    intro acc ha
    rw [List.foldl_cons]
    by_cases hx : x ∈ acc
    · rw [if_pos hx]
      exact ih acc ha
    · rw [if_neg hx]
      apply ih
      rw [List.nodup_append]
      exact ⟨ha, List.nodup_singleton x, fun a hax => by
        simp only [List.mem_singleton]
        intro hax2
        subst hax2
        exact hx hax⟩

theorem sortedUnique_nodup (l : List String) : (sortedUnique l).Nodup := by
  unfold sortedUnique sortBy
  exact (List.perm_insertionSort _ _).nodup_iff.mpr (dedupFirst_nodup l)

theorem buildCapFull_keys_nodup (grp : List GrpRow)
    (preAssign : List (Student × List SlotKey)) :
    ((buildCapFull grp preAssign).1.map Prod.fst).Nodup := by
  unfold buildCapFull
  suffices h : ∀ acc : CapMap × FullMap, (acc.1.map Prod.fst).Nodup →
      ((grp.foldl
        (fun (acc : CapMap × FullMap) row =>
          (dictInsert acc.1 (grpKey row)
            (row.capacity - (preCount preAssign (grpKey row) : Int)),
           dictInsert acc.2 (grpKey row) row.fullDay))
        acc).1.map Prod.fst).Nodup by
    exact h ([], []) (by simp)
  induction grp with
  | nil => intro acc ha; simpa using ha
  | cons g rest ih =>
    intro acc ha
    rw [List.foldl_cons]
    exact ih _ (dictInsert_keys_nodup _ _ _ ha)

theorem mainEarly_nodup (inp : MainInput) : (mainEarly inp).Nodup :=
  (((sortedUnique_nodup _).filter _).filter _)

theorem mainMidLate_nodup (inp : MainInput) :
    (mainMid inp ++ mainLate inp).Nodup := by
  unfold mainMid mainLate
  rw [List.nodup_append]
  refine ⟨(sortedUnique_nodup _).filter _ |>.filter _,
    (sortedUnique_nodup _).filter _ |>.filter _, ?_⟩
  intro s hs1 hs2
  have h1 := (List.mem_filter.mp hs1).2
  have h2 := (List.mem_filter.mp hs2).2
  rw [decide_eq_true_eq] at h1 h2
  omega

theorem early_midlate_disjoint (inp : MainInput) (s : Student)
    (h1 : s ∈ mainEarly inp) (h2 : s ∈ mainMid inp ++ mainLate inp)
    (hcuts : inp.earlyCut ≤ inp.midCut) : False := by
  have he := (List.mem_filter.mp h1).2
  rw [decide_eq_true_eq] at he
  rcases List.mem_append.mp h2 with hm | hm
  · have := (List.mem_filter.mp hm).2
    rw [decide_eq_true_eq] at this
    omega
  · have := (List.mem_filter.mp hm).2
    rw [decide_eq_true_eq] at this
    omega

/-! ### Greedy bookkeeping invariants -/

theorem candWs_spec (cm : CapMap) (day : Day) (sess : Nat)
    (usedW : List Workshop) (w : Workshop) :
    w ∈ candWs cm day sess usedW ↔
      (w, day, sess) ∈ cm.map Prod.fst ∧ capAt cm (w, day, sess) > 0
        ∧ w ∉ usedW := by
  unfold candWs
  rw [List.mem_filterMap]
  constructor
  · rintro ⟨k, hk, hif⟩
    by_cases hc : k.2.1 = day ∧ k.2.2 = sess ∧ capAt cm k > 0 ∧ k.1 ∉ usedW
    · rw [if_pos hc] at hif
      have hw : k.1 = w := Option.some_inj.mp hif
      obtain ⟨h1, h2, h3, h4⟩ := hc
      have hkey : k = (w, day, sess) := by
        rw [← hw, ← h1, ← h2]
      rw [← hkey]
      exact ⟨hk, h3, hw ▸ h4⟩
    · rw [if_neg hc] at hif
      exact absurd hif (by simp)
  · rintro ⟨hk, hcap, hw⟩
    refine ⟨(w, day, sess), hk, ?_⟩
    rw [if_pos ⟨rfl, rfl, hcap, hw⟩]

/-- Capacity relation along greedy steps: rows only grow, the capacity keys
are unchanged, every new row decrements its own slot once, and a slot is only
decremented while its capacity is still positive. -/
def GCap (a b : GState) : Prop :=
  b.cm.map Prod.fst = a.cm.map Prod.fst
    ∧ ∃ new, b.rows = a.rows ++ new
      ∧ ∀ k, capAt b.cm k = capAt a.cm k - (cnt new k : Int)
        ∧ ((cnt new k : Int) = 0 ∨ capAt b.cm k ≥ 0)

theorem GCap_refl (a : GState) : GCap a a :=
  ⟨rfl, [], by simp, fun k => ⟨by simp [cnt_nil], Or.inl (by simp [cnt_nil])⟩⟩

theorem GCap_trans (a b c : GState) (h1 : GCap a b) (h2 : GCap b c) :
    GCap a c := by
  obtain ⟨hk1, n1, hr1, hc1⟩ := h1
  obtain ⟨hk2, n2, hr2, hc2⟩ := h2
  refine ⟨hk2.trans hk1, n1 ++ n2, by rw [hr2, hr1, List.append_assoc], ?_⟩
  intro k
  obtain ⟨e1, d1⟩ := hc1 k
  obtain ⟨e2, d2⟩ := hc2 k
  rw [cnt_append]
  constructor
  · push_cast
    omega
  · push_cast at d1 d2 ⊢
    omega

theorem GCap_assign (st : GState) (s : Student) (z : Zone) (day : Day)
    (sess : Nat) (w : Workshop) (usedW' : List Workshop)
    (usedS' : List (Day × Nat))
    (hkmem : (w, day, sess) ∈ st.cm.map Prod.fst)
    (hcap : capAt st.cm (w, day, sess) > 0) :
    GCap st ⟨st.rows ++ [⟨s, z, day, sess, w⟩], capDec st.cm (w, day, sess),
      usedW', usedS'⟩ := by
  refine ⟨capDec_keys _ _, [⟨s, z, day, sess, w⟩], rfl, fun k => ?_⟩
  rw [cnt_singleton]
  by_cases hk : (w, day, sess) = k
  · rw [if_pos hk, ← hk]
    have := capAt_capDec_same st.cm (w, day, sess) hkmem
    dsimp only
    rw [this]
    exact ⟨by push_cast; ring, Or.inr (by omega)⟩
  · rw [if_neg hk]
    dsimp only
    rw [capAt_capDec_other st.cm (w, day, sess) k (fun hx => hk hx.symm)]
    exact ⟨by simp, Or.inl (by simp)⟩

theorem sessStep_GCap (zm : List (Workshop × Zone)) (cost : CostMap)
    (s : Student) (day : Day) (sess : Nat) (st st' : GState)
    (h : sessStep zm cost s day sess st = some st') : GCap st st' := by
  by_cases hm : (day, sess) ∈ st.usedS
  · rw [sessStep_skip zm cost s day sess st hm] at h
    rw [← Option.some_inj.mp h]
    exact GCap_refl st
  · by_cases hc : candWs st.cm day sess st.usedW = []
    · rw [sessStep_noCands zm cost s day sess st hc] at h
      rw [← Option.some_inj.mp h]
      exact GCap_refl st
    · obtain ⟨w, z, _, hwc, _, hst⟩ :=
        sessStep_assign zm cost s day sess st st' h hm hc
      obtain ⟨hkmem, hcap, _⟩ := (candWs_spec _ _ _ _ _).mp hwc
      rw [hst]
      exact GCap_assign st s z day sess w _ _ hkmem hcap

theorem greedyDay_GCap (zm : List (Workshop × Zone)) (cost : CostMap)
    (s : Student) (day : Day) (st st' : GState)
    (h : greedyDay zm cost s day st = some st') : GCap st st' := by
  by_cases hc : candWs st.cm day 0 st.usedW = []
  · rw [greedyDay_split zm cost s day st hc] at h
    cases h1 : sessStep zm cost s day 1 st with
    | none => rw [h1] at h; exact absurd h (by simp)
    | some st1 =>
      rw [h1] at h
      dsimp only at h
      exact GCap_trans st st1 st'
        (sessStep_GCap zm cost s day 1 st st1 h1)
        (sessStep_GCap zm cost s day 2 st1 st' h)
  · obtain ⟨w, z, _, hwc, _, hst⟩ := greedyDay_full zm cost s day st st' h hc
    obtain ⟨hkmem, hcap, _⟩ := (candWs_spec _ _ _ _ _).mp hwc
    rw [hst]
    exact GCap_assign st s z day 0 w _ _ hkmem hcap

theorem greedyStudent_GCap (zm : List (Workshop × Zone)) (cost : CostMap)
    (days : List Day) (s : Student) (st st' : GState)
    (h : greedyStudent zm cost days s st = some st') : GCap st st' := by
  unfold greedyStudent at h
  have hreset : GCap st { st with usedW := [], usedS := [] } :=
    ⟨rfl, [], by simp, fun k => ⟨by simp [cnt_nil], Or.inl (by simp [cnt_nil])⟩⟩
  exact GCap_trans _ _ _ hreset
    (optFold_chain GCap GCap_refl GCap_trans
      (fun a day' b _ hstep => greedyDay_GCap zm cost s day' a b hstep) h)

/-- Capacity accounting of a full greedy run. -/
theorem greedy_assign_cap (students : List Student)
    (zm : List (Workshop × Zone)) (cost : CostMap) (cm : CapMap)
    (fm : FullMap) (days : List Day) (rows : List Row) (cm' : CapMap)
    (h : greedy_assign students zm cost cm fm days = some (rows, cm')) :
    cm'.map Prod.fst = cm.map Prod.fst
      ∧ ∀ k, capAt cm' k = capAt cm k - (cnt rows k : Int)
        ∧ ((cnt rows k : Int) = 0 ∨ capAt cm' k ≥ 0) := by
  unfold greedy_assign at h
  cases hf : optFold (fun st s => greedyStudent zm cost days s st) students
      ⟨[], cm, [], []⟩ with
  | none => rw [hf] at h; exact absurd h (by simp)
  | some stF =>
    rw [hf] at h
    dsimp only at h
    have hpair := Option.some_inj.mp h
    have hchain := optFold_chain GCap GCap_refl GCap_trans
      (fun a s' b _ hstep => greedyStudent_GCap zm cost days s' a b hstep) hf
    obtain ⟨hkeys, new, hrows, hcap⟩ := hchain
    have h1 : stF.rows = rows := congrArg Prod.fst hpair
    have h2 : stF.cm = cm' := congrArg Prod.snd hpair
    rw [h1] at hrows
    rw [h2] at hkeys hcap
    simp only [List.nil_append] at hrows
    subst hrows
    exact ⟨hkeys, hcap⟩

theorem length_filter_mono {α : Type} (l : List α) (p q : α → Bool)
    (h : ∀ x ∈ l, p x = true → q x = true) :
    (l.filter p).length ≤ (l.filter q).length := by
  induction l with
  | nil => simp
  | cons x rest ih =>
    have hrest := fun y hy => h y (List.mem_cons_of_mem x hy)
    rw [List.filter_cons, List.filter_cons]
    by_cases hp : p x = true
    · rw [if_pos hp, if_pos (h x (List.mem_cons_self x rest) hp)]
      simpa using ih hrest
    · rw [if_neg hp]
      by_cases hq : q x = true
      · rw [if_pos hq]
        exact Nat.le_trans (ih hrest) (by simp)
      · rw [if_neg hq]
        exact ih hrest

theorem nodup_map_filter_le_one {α β : Type} [DecidableEq β] (l : List α)
    (f : α → β) (y : β) (h : (l.map f).Nodup) :
    (l.filter (fun x => f x = y)).length ≤ 1 := by
  induction l with
  | nil => simp
  | cons x rest ih =>
    rw [List.map_cons, List.nodup_cons] at h
    rw [List.filter_cons]
    by_cases hx : f x = y
    · rw [if_pos (by simpa using hx)]
      have : rest.filter (fun x => decide (f x = y)) = [] := by
        apply List.filter_eq_nil_iff.mpr
        intro r hr
        simp only [decide_eq_true_eq]
        intro hfr
        exact h.1 (List.mem_map.mpr ⟨r, hr, by rw [hfr, hx]⟩)
      simp [this]
    · rw [if_neg (by simpa using hx)]
      exact ih h.2

theorem cntPA_zero (rows : List Row) (p : Student) (a : Workshop)
    (h : ∀ r ∈ rows, r.student ≠ p) : cntPA rows p a = 0 := by
  unfold cntPA
  have : rows.filter (fun r => decide (r.student = p ∧ r.workshop = a)) = [] := by
    apply List.filter_eq_nil_iff.mpr
    intro r hr
    simp [h r hr]
  rw [this]
  rfl

/-- No-repeat relation along one student's greedy steps. -/
def GNoRep (s : Student) (a b : GState) : Prop :=
  ∃ new, b.rows = a.rows ++ new
    ∧ (∀ r ∈ new, r.student = s)
    ∧ (new.map Row.workshop).Nodup
    ∧ (∀ r ∈ new, r.workshop ∈ b.usedW ∧ r.workshop ∉ a.usedW)
    ∧ (∀ x ∈ a.usedW, x ∈ b.usedW)

theorem GNoRep_refl (s : Student) (a : GState) : GNoRep s a a :=
  ⟨[], by simp, by simp, by simp, by simp, fun x hx => hx⟩

theorem GNoRep_trans (s : Student) (a b c : GState) (h1 : GNoRep s a b)
    (h2 : GNoRep s b c) : GNoRep s a c := by
  obtain ⟨n1, hr1, hs1, hn1, hw1, hm1⟩ := h1
  obtain ⟨n2, hr2, hs2, hn2, hw2, hm2⟩ := h2
  refine ⟨n1 ++ n2, by rw [hr2, hr1, List.append_assoc], ?_, ?_, ?_, ?_⟩
  · intro r hr
    rcases List.mem_append.mp hr with h | h
    · exact hs1 r h
    · exact hs2 r h
  · rw [List.map_append, List.nodup_append]
    refine ⟨hn1, hn2, ?_⟩
    intro x hx1
    obtain ⟨r1, hr1m, hrx⟩ := List.mem_map.mp hx1
    intro hx2
    obtain ⟨r2, hr2m, hrx2⟩ := List.mem_map.mp hx2
    have h1 : x ∈ b.usedW := hrx ▸ (hw1 r1 hr1m).1
    have h2 : x ∉ b.usedW := hrx2 ▸ (hw2 r2 hr2m).2
    exact h2 h1
  · intro r hr
    rcases List.mem_append.mp hr with h | h
    · exact ⟨hm2 _ (hw1 r h).1, (hw1 r h).2⟩
    · exact ⟨(hw2 r h).1, fun hx => (hw2 r h).2 (hm1 _ hx)⟩
  · exact fun x hx => hm2 x (hm1 x hx)

theorem sessStep_GNoRep (zm : List (Workshop × Zone)) (cost : CostMap)
    (s : Student) (day : Day) (sess : Nat) (st st' : GState)
    (h : sessStep zm cost s day sess st = some st') : GNoRep s st st' := by
  by_cases hm : (day, sess) ∈ st.usedS
  · rw [sessStep_skip zm cost s day sess st hm] at h
    rw [← Option.some_inj.mp h]
    exact GNoRep_refl s st
  · by_cases hc : candWs st.cm day sess st.usedW = []
    · rw [sessStep_noCands zm cost s day sess st hc] at h
      rw [← Option.some_inj.mp h]
      exact GNoRep_refl s st
    · obtain ⟨w, z, _, hwc, _, hst⟩ :=
        sessStep_assign zm cost s day sess st st' h hm hc
      obtain ⟨_, _, hused⟩ := (candWs_spec _ _ _ _ _).mp hwc
      rw [hst]
      exact ⟨[⟨s, z, day, sess, w⟩], rfl, by simp, by simp,
        fun r hr => by
          have : r = (⟨s, z, day, sess, w⟩ : Row) := by simpa using hr
          subst this
          exact ⟨by simp, hused⟩,
        fun x hx => by simp [hx]⟩

theorem greedyDay_GNoRep (zm : List (Workshop × Zone)) (cost : CostMap)
    (s : Student) (day : Day) (st st' : GState)
    (h : greedyDay zm cost s day st = some st') : GNoRep s st st' := by
  by_cases hc : candWs st.cm day 0 st.usedW = []
  · rw [greedyDay_split zm cost s day st hc] at h
    cases h1 : sessStep zm cost s day 1 st with
    | none => rw [h1] at h; exact absurd h (by simp)
    | some st1 =>
      rw [h1] at h
      dsimp only at h
      exact GNoRep_trans s st st1 st'
        (sessStep_GNoRep zm cost s day 1 st st1 h1)
        (sessStep_GNoRep zm cost s day 2 st1 st' h)
  · obtain ⟨w, z, _, hwc, _, hst⟩ := greedyDay_full zm cost s day st st' h hc
    obtain ⟨_, _, hused⟩ := (candWs_spec _ _ _ _ _).mp hwc
    rw [hst]
    exact ⟨[⟨s, z, day, 0, w⟩], rfl, by simp, by simp,
      fun r hr => by
        have : r = (⟨s, z, day, 0, w⟩ : Row) := by simpa using hr
        subst this
        exact ⟨by simp, hused⟩,
      fun x hx => by simp [hx]⟩

/-- One student's greedy pass appends only rows of that student, with
pairwise-distinct workshops. -/
theorem greedyStudent_rows (zm : List (Workshop × Zone)) (cost : CostMap)
    (days : List Day) (s : Student) (st st' : GState)
    (h : greedyStudent zm cost days s st = some st') :
    ∃ new, st'.rows = st.rows ++ new ∧ (∀ r ∈ new, r.student = s)
      ∧ (new.map Row.workshop).Nodup := by
  unfold greedyStudent at h
  have hchain := optFold_chain (GNoRep s) (GNoRep_refl s) (GNoRep_trans s)
    (fun a day' b _ hstep => greedyDay_GNoRep zm cost s day' a b hstep) h
  obtain ⟨new, hr, hs, hn, _, _⟩ := hchain
  exact ⟨new, hr, hs, hn⟩

theorem greedyFold_pa (zm : List (Workshop × Zone)) (cost : CostMap)
    (days : List Day) :
    ∀ (students : List Student) (st stF : GState),
      optFold (fun st s => greedyStudent zm cost days s st) students st
          = some stF →
      students.Nodup →
      ∃ new, stF.rows = st.rows ++ new
        ∧ (∀ r ∈ new, r.student ∈ students)
        ∧ ∀ p a, cntPA new p a ≤ 1 := by
  intro students
  induction students with
  | nil =>
    intro st stF h _
    rw [optFold_nil, Option.some_inj] at h
    exact ⟨[], by simp [← h], by simp, by simp [cntPA]⟩
  | cons s rest ih =>
    intro st stF h hnd
    rw [optFold_cons] at h
    cases h1 : greedyStudent zm cost days s st with
    | none => rw [h1] at h; exact absurd h (by simp)
    | some st1 =>
      rw [h1] at h
      obtain ⟨n1, hr1, hs1, hn1⟩ := greedyStudent_rows zm cost days s st st1 h1
      obtain ⟨n2, hr2, hs2, hpa2⟩ :=
        ih st1 stF h (List.nodup_cons.mp hnd).2
      refine ⟨n1 ++ n2, by rw [hr2, hr1, List.append_assoc], ?_, ?_⟩
      · intro r hr
        rcases List.mem_append.mp hr with hx | hx
        · exact (hs1 r hx) ▸ List.mem_cons_self s rest
        · exact List.mem_cons_of_mem s (hs2 r hx)
      · intro p a
        rw [cntPA_append]
        by_cases hp : p = s
        · subst hp
          have hz2 : cntPA n2 p a = 0 := by
            apply cntPA_zero
            intro r hr hrp
            exact (List.nodup_cons.mp hnd).1 (hrp ▸ hs2 r hr)
          rw [hz2, Nat.add_zero]
          have hb : cntPA n1 p a ≤ (n1.filter
              (fun r => Row.workshop r = a)).length := by
            unfold cntPA
            apply length_filter_mono
            intro r _ hr
            simp only [decide_eq_true_eq] at hr ⊢
            exact hr.2
          exact Nat.le_trans hb (nodup_map_filter_le_one n1 Row.workshop a hn1)
        · have hz1 : cntPA n1 p a = 0 := by
            apply cntPA_zero
            intro r hr hrp
            exact hp ((hrp ▸ hs1 r hr : p = s))
          rw [hz1, Nat.zero_add]
          exact hpa2 p a

/-- No participant receives the same workshop twice in one greedy run, and
every greedy row belongs to a student of the cohort. -/
theorem greedy_assign_norepeat (students : List Student)
    (zm : List (Workshop × Zone)) (cost : CostMap) (cm : CapMap)
    (fm : FullMap) (days : List Day) (rows : List Row) (cm' : CapMap)
    (h : greedy_assign students zm cost cm fm days = some (rows, cm'))
    (hnd : students.Nodup) :
    (∀ r ∈ rows, r.student ∈ students) ∧ ∀ p a, cntPA rows p a ≤ 1 := by
  unfold greedy_assign at h
  cases hf : optFold (fun st s => greedyStudent zm cost days s st) students
      ⟨[], cm, [], []⟩ with
  | none => rw [hf] at h; exact absurd h (by simp)
  | some stF =>
    rw [hf] at h
    dsimp only at h
    obtain ⟨new, hr, hs, hpa⟩ := greedyFold_pa zm cost days students _ _ hf hnd
    have h1 : stF.rows = rows := congrArg Prod.fst (Option.some_inj.mp h)
    rw [h1] at hr
    simp only [List.nil_append] at hr
    subst hr
    exact ⟨hs, hpa⟩

theorem cnt_cons (r : Row) (rows : List Row) (k : SlotKey) :
    cnt (r :: rows) k
      = (if (r.workshop, r.day, r.session) = k then 1 else 0) + cnt rows k := by
  unfold cnt
  rw [List.filter_cons]
  by_cases h : (r.workshop, r.day, r.session) = k
  · rw [if_pos (by simpa using h), if_pos h]
    simp [Nat.add_comm]
  · rw [if_neg (fun hx => h (by simpa using hx)), if_neg h]
    simp

theorem cntPA_cons (r : Row) (rows : List Row) (p : Student) (a : Workshop) :
    cntPA (r :: rows) p a
      = (if r.student = p ∧ r.workshop = a then 1 else 0) + cntPA rows p a := by
  unfold cntPA
  rw [List.filter_cons]
  by_cases h : r.student = p ∧ r.workshop = a
  · rw [if_pos (by simpa using h), if_pos h]
    simp [Nat.add_comm]
  · rw [if_neg (fun hx => h (by simpa using hx)), if_neg h]
    simp

/-- Rows built from a duplicate-free slot list hit any given slot at most
once; exactly once iff the slot is listed. -/
theorem cnt_manual_entry (zm : List (Workshop × Zone)) (s0 : Student)
    (slots : List SlotKey) (k : SlotKey) (hnd : slots.Nodup) :
    cnt (slots.map (fun k' =>
        (⟨s0, (alookup zm k'.1).getD "", k'.2.1, k'.2.2, k'.1⟩ : Row))) k
      = if k ∈ slots then 1 else 0 := by
  induction slots with
  | nil => simp [cnt]
  | cons b rest ih =>
    rw [List.nodup_cons] at hnd
    rw [List.map_cons, cnt_cons, ih hnd.2]
    by_cases hbk : b = k
    · have hcond : ((⟨s0, (alookup zm b.1).getD "", b.2.1, b.2.2, b.1⟩ :
          Row).workshop,
          (⟨s0, (alookup zm b.1).getD "", b.2.1, b.2.2, b.1⟩ : Row).day,
          (⟨s0, (alookup zm b.1).getD "", b.2.1, b.2.2, b.1⟩ : Row).session)
          = k := by
        rw [← hbk]
      rw [if_pos hcond, if_pos (List.mem_cons.mpr (Or.inl hbk.symm)),
        if_neg (show k ∉ rest by rw [← hbk]; exact hnd.1)]
    · rw [if_neg (fun hx => hbk hx)]
      by_cases hk : k ∈ rest
      · rw [if_pos hk, if_pos (List.mem_cons_of_mem b hk)]
      · rw [if_neg hk, if_neg (fun hx =>
          (List.mem_cons.mp hx).elim (fun h => hbk h.symm) hk)]

/-- The manual block's occupancy of any slot equals the override seat count,
when no student's fixed-slot list repeats a slot. -/
theorem manual_cnt (zm : List (Workshop × Zone))
    (preAssign : List (Student × List SlotKey)) (manual : List Row)
    (h : buildManualRows zm preAssign = some manual)
    (hnd : ∀ p ∈ preAssign, p.2.Nodup) (k : SlotKey) :
    cnt manual k = preCount preAssign k := by
  rw [buildManualRows_eq zm preAssign manual h]
  clear h
  induction preAssign with
  | nil => simp [cnt, preCount]
  | cons p rest ih =>
    rw [List.flatMap_cons, cnt_append, cnt_manual_entry zm p.1 p.2 k
        (hnd p (List.mem_cons_self p rest)),
      ih (fun q hq => hnd q (List.mem_cons_of_mem p hq))]
    unfold preCount
    by_cases hm : k ∈ p.2
    · rw [if_pos hm, List.filter_cons_of_pos (by simpa using hm)]
      simp [Nat.add_comm]
    · rw [if_neg hm, List.filter_cons_of_neg (by simpa using hm)]
      simp

/-- Any row list whose workshop titles are pairwise distinct assigns each
(participant, activity) pair at most once. -/
theorem cntPA_le_of_workshops_nodup (rows : List Row) (p : Student)
    (a : Workshop) (h : (rows.map Row.workshop).Nodup) :
    cntPA rows p a ≤ 1 := by
  have hb : cntPA rows p a
      ≤ (rows.filter (fun r => Row.workshop r = a)).length := by
    unfold cntPA
    apply length_filter_mono
    intro r _ hr
    simp only [decide_eq_true_eq] at hr ⊢
    exact hr.2
  exact le_trans hb (nodup_map_filter_le_one rows Row.workshop a h)

theorem manual_flatMap_students (zm : List (Workshop × Zone))
    (l : List (Student × List SlotKey)) :
    ∀ r ∈ l.flatMap (fun p => p.2.map (fun k =>
        (⟨p.1, (alookup zm k.1).getD "", k.2.1, k.2.2, k.1⟩ : Row))),
      r.student ∈ l.map Prod.fst := by
  intro r hr
  obtain ⟨p, hp, hr2⟩ := List.mem_flatMap.mp hr
  obtain ⟨k, _, hk⟩ := List.mem_map.mp hr2
  rw [← hk]
  exact List.mem_map.mpr ⟨p, hp, rfl⟩

theorem manual_cntPA_aux (zm : List (Workshop × Zone)) (p : Student)
    (a : Workshop) :
    ∀ l : List (Student × List SlotKey), (l.map Prod.fst).Nodup →
      (∀ q ∈ l, ((q.2.map Prod.fst : List Workshop)).Nodup) →
      cntPA (l.flatMap (fun q => q.2.map (fun k =>
          (⟨q.1, (alookup zm k.1).getD "", k.2.1, k.2.2, k.1⟩ : Row)))) p a
        ≤ 1 := by
  intro l
  induction l with
  | nil =>
    intro _ _
    simp [cntPA]
  | cons q rest ih =>
    intro hkeys hw
    rw [List.map_cons, List.nodup_cons] at hkeys
    rw [List.flatMap_cons, cntPA_append]
    by_cases hq : q.1 = p
    · have hz : cntPA (rest.flatMap (fun q => q.2.map (fun k =>
          (⟨q.1, (alookup zm k.1).getD "", k.2.1, k.2.2, k.1⟩ : Row)))) p a
          = 0 := by
        apply cntPA_zero
        intro r hr hrp
        apply hkeys.1
        rw [hq, ← hrp]
        exact manual_flatMap_students zm rest r hr
      have h1 : cntPA (q.2.map (fun k =>
          (⟨q.1, (alookup zm k.1).getD "", k.2.1, k.2.2, k.1⟩ : Row))) p a
          ≤ 1 := by
        apply cntPA_le_of_workshops_nodup
        have hmm : (q.2.map (fun k =>
            (⟨q.1, (alookup zm k.1).getD "", k.2.1, k.2.2, k.1⟩ :
              Row))).map Row.workshop = q.2.map Prod.fst := by
          rw [List.map_map]
          rfl
        rw [hmm]
        exact hw q (List.mem_cons_self q rest)
      omega
    · have hz : cntPA (q.2.map (fun k =>
          (⟨q.1, (alookup zm k.1).getD "", k.2.1, k.2.2, k.1⟩ : Row))) p a
          = 0 := by
        apply cntPA_zero
        intro r hr hrp
        obtain ⟨k, _, hk⟩ := List.mem_map.mp hr
        apply hq
        rw [← hrp, ← hk]
      rw [hz, Nat.zero_add]
      exact ih hkeys.2 (fun q' hq' => hw q' (List.mem_cons_of_mem q hq'))

/-- The manual block assigns each (participant, activity) pair at most once,
when each participant is forced at most one list of slots and no list names
the same workshop twice. -/
theorem manual_cntPA (zm : List (Workshop × Zone))
    (preAssign : List (Student × List SlotKey)) (manual : List Row)
    (h : buildManualRows zm preAssign = some manual)
    (hkeys : (preAssign.map Prod.fst).Nodup)
    (hw : ∀ q ∈ preAssign, ((q.2.map Prod.fst : List Workshop)).Nodup)
    (p : Student) (a : Workshop) : cntPA manual p a ≤ 1 := by
  rw [buildManualRows_eq zm preAssign manual h]
  exact manual_cntPA_aux zm p a preAssign hkeys hw

theorem varList_fst (students : List Student) (cm : CapMap) (v : Var)
    (h : v ∈ varList students cm) :
    v.1 ∈ students ∧ v.2 ∈ cm.map Prod.fst := by
  unfold varList at h
  obtain ⟨s, hs, h2⟩ := List.mem_flatMap.mp h
  obtain ⟨k, hk, he⟩ := List.mem_map.mp h2
  rw [← he]
  exact ⟨hs, hk⟩

theorem varList_mem (students : List Student) (cm : CapMap) (s : Student)
    (k : SlotKey) (hs : s ∈ students) (hk : k ∈ cm.map Prod.fst) :
    ((s, k) : Var) ∈ varList students cm :=
  List.mem_flatMap.mpr ⟨s, hs, List.mem_map.mpr ⟨k, hk, rfl⟩⟩

theorem filter_map_pair (keys : List SlotKey) (s : Student) (q : Var → Bool) :
    (keys.map (fun k' => ((s, k') : Var))).filter q
      = (keys.filter (fun k' => q (s, k'))).map (fun k' => ((s, k') : Var)) := by
  induction keys with
  | nil => rfl
  | cons b rest ih =>
    simp only [List.map_cons]
    by_cases hb : q (s, b) = true
    · rw [List.filter_cons_of_pos hb, ih,
        show List.filter (fun k' => q (s, k')) (b :: rest)
            = b :: List.filter (fun k' => q (s, k')) rest
          from List.filter_cons_of_pos (by simpa using hb),
        List.map_cons]
    · rw [List.filter_cons_of_neg hb, ih,
        show List.filter (fun k' => q (s, k')) (b :: rest)
            = List.filter (fun k' => q (s, k')) rest
          from List.filter_cons_of_neg (by simpa using hb)]

theorem extract_cnt_one (zm : List (Workshop × Zone)) (keys : List SlotKey)
    (s : Student) (val : Var → Int) (k : SlotKey) (hnd : keys.Nodup) :
    cnt (((keys.map (fun k' => ((s, k') : Var))).filter
        (fun v => val v = 1)).map (fun v =>
        (⟨v.1, (alookup zm v.2.1).getD "", v.2.2.1, v.2.2.2, v.2.1⟩ :
          Row))) k
      = if val (s, k) = 1 ∧ k ∈ keys then 1 else 0 := by
  rw [filter_map_pair keys s (fun v => decide (val v = 1)), List.map_map]
  change cnt ((keys.filter (fun k' => decide (val (s, k') = 1))).map
      (fun k' =>
        (⟨s, (alookup zm k'.1).getD "", k'.2.1, k'.2.2, k'.1⟩ : Row))) k
    = if val (s, k) = 1 ∧ k ∈ keys then 1 else 0
  rw [cnt_manual_entry zm s _ k (hnd.filter _)]
  by_cases hm : val (s, k) = 1 ∧ k ∈ keys
  · rw [if_pos (List.mem_filter.mpr ⟨hm.2, by simp [hm.1]⟩), if_pos hm]
  · rw [if_neg (fun hx => hm ⟨by simpa using (List.mem_filter.mp hx).2,
      (List.mem_filter.mp hx).1⟩), if_neg hm]

/-- One-slot occupancy of the committed exact rows: for every slot, the
committed rows hitting it come one per cohort student whose variable on that
slot is valued 1. -/
theorem extract_cnt (zm : List (Workshop × Zone)) (students : List Student)
    (cm : CapMap) (val : Var → Int) (k : SlotKey)
    (hnd : (cm.map Prod.fst).Nodup) :
    cnt (((varList students cm).filter (fun v => val v = 1)).map (fun v =>
        (⟨v.1, (alookup zm v.2.1).getD "", v.2.2.1, v.2.2.2, v.2.1⟩ :
          Row))) k
      = (students.filter
          (fun s => val (s, k) = 1 ∧ k ∈ cm.map Prod.fst)).length := by
  induction students with
  | nil => simp [varList, cnt]
  | cons s rest ih =>
    have hsplit : varList (s :: rest) cm
        = (cm.map Prod.fst).map (fun k' => ((s, k') : Var))
          ++ varList rest cm := by
      unfold varList
      rw [List.flatMap_cons]
    rw [hsplit, List.filter_append, List.map_append, cnt_append, ih,
      extract_cnt_one zm (cm.map Prod.fst) s val k hnd]
    by_cases hc : val (s, k) = 1 ∧ k ∈ cm.map Prod.fst
    · rw [if_pos hc, List.filter_cons_of_pos (by simpa using hc)]
      simp [Nat.add_comm]
    · rw [if_neg hc, List.filter_cons_of_neg (by simpa using hc)]
      simp

theorem sum_eq_filter_length {α : Type} (l : List α) (g : α → Int)
    (hb : ∀ x ∈ l, g x = 0 ∨ g x = 1) :
    (l.map g).sum = ((l.filter (fun x => g x = 1)).length : Int) := by
  induction l with
  | nil => simp
  | cons x rest ih =>
    have hrest : ∀ y ∈ rest, g y = 0 ∨ g y = 1 :=
      fun y hy => hb y (List.mem_cons_of_mem x hy)
    rw [List.map_cons, List.sum_cons, ih hrest]
    by_cases hx : g x = 1
    · rw [List.filter_cons_of_pos (by simpa using hx), hx, List.length_cons]
      push_cast
      omega
    · rw [List.filter_cons_of_neg (by simpa using hx)]
      have h0 : g x = 0 := (hb x (List.mem_cons_self x rest)).resolve_right hx
      rw [h0]
      omega

theorem length_filter_filter {α : Type} (l : List α) (p q : α → Bool) :
    ((l.filter p).filter q).length
      = (l.filter (fun x => p x && q x)).length := by
  induction l with
  | nil => rfl
  | cons x rest ih =>
    by_cases hp : p x = true
    · by_cases hq : q x = true
      · rw [List.filter_cons_of_pos hp, List.filter_cons_of_pos hq,
          show List.filter (fun x => p x && q x) (x :: rest)
              = x :: List.filter (fun x => p x && q x) rest
            from List.filter_cons_of_pos (by simp [hp, hq])]
        simp only [List.length_cons, ih]
      · rw [List.filter_cons_of_pos hp, List.filter_cons_of_neg hq,
          show List.filter (fun x => p x && q x) (x :: rest)
              = List.filter (fun x => p x && q x) rest
            from List.filter_cons_of_neg (by simp [hp, hq])]
        exact ih
    · rw [List.filter_cons_of_neg hp,
        show List.filter (fun x => p x && q x) (x :: rest)
            = List.filter (fun x => p x && q x) rest
          from List.filter_cons_of_neg (by simp [hp])]
      exact ih

theorem cntPA_rowmap (zm : List (Workshop × Zone)) (l : List Var)
    (p : Student) (a : Workshop) :
    cntPA (l.map (fun v =>
        (⟨v.1, (alookup zm v.2.1).getD "", v.2.2.1, v.2.2.2, v.2.1⟩ :
          Row))) p a
      = (l.filter (fun v => decide (v.1 = p ∧ v.2.1 = a))).length := by
  induction l with
  | nil => rfl
  | cons v rest ih =>
    rw [List.map_cons, cntPA_cons, ih]
    by_cases hc : v.1 = p ∧ v.2.1 = a
    · rw [if_pos (by exact hc), List.filter_cons_of_pos (by simpa using hc)]
      simp [Nat.add_comm]
    · rw [if_neg (by exact fun hx => hc hx),
        List.filter_cons_of_neg (by simpa using hc)]
      simp

theorem varList_filter_student (students : List Student) (keys0 : CapMap)
    (P : Var → Bool) (p : Student) (hP : ∀ v, P v = true → v.1 = p)
    (hnd : students.Nodup) :
    ((varList students keys0).filter P).length
      ≤ (((keys0.map Prod.fst).map
          (fun k => ((p, k) : Var))).filter P).length := by
  induction students with
  | nil => simp [varList]
  | cons s rest ih =>
    rw [List.nodup_cons] at hnd
    have hsplit : varList (s :: rest) keys0
        = (keys0.map Prod.fst).map (fun k => ((s, k) : Var))
          ++ varList rest keys0 := by
      unfold varList
      rw [List.flatMap_cons]
    rw [hsplit, List.filter_append, List.length_append]
    by_cases hs : s = p
    · subst hs
      have hz : (varList rest keys0).filter P = [] := by
        apply List.filter_eq_nil_iff.mpr
        intro v hv hPv
        have h1 := (varList_fst rest keys0 v hv).1
        rw [hP v hPv] at h1
        exact hnd.1 h1
      rw [hz]
      simp
    · have hz : ((keys0.map Prod.fst).map
          (fun k => ((s, k) : Var))).filter P = [] := by
        apply List.filter_eq_nil_iff.mpr
        intro v hv hPv
        obtain ⟨k, _, hk⟩ := List.mem_map.mp hv
        apply hs
        rw [← hP v hPv, ← hk]
      rw [hz]
      simpa using ih hnd.2

theorem extractRows_students (zm : List (Workshop × Zone))
    (students : List Student) (cmv cm : CapMap) (val : Var → Int)
    (rows : List Row) (cm' : CapMap)
    (h : extractRows zm (varList students cmv) val cm = some (rows, cm')) :
    ∀ r ∈ rows, r.student ∈ students := by
  have heq := extractRows_rows zm (varList students cmv) val cm rows cm' h
  subst heq
  intro r hr
  obtain ⟨v, hv, hrv⟩ := List.mem_map.mp hr
  rw [← hrv]
  exact (varList_fst students cmv v (List.mem_filter.mp hv).1).1

/-- The committed exact rows respect the no-repeat constraint family: when
the solver's values are binary and satisfy `NoRepeat`, no cohort student gets
the same workshop title twice. -/
theorem exact_cntPA (zm : List (Workshop × Zone)) (students : List Student)
    (cm : CapMap) (val : Var → Int) (rows : List Row) (cm' : CapMap)
    (h : extractRows zm (varList students cm) val cm = some (rows, cm'))
    (hnd : students.Nodup)
    (hb : binaryOn (varList students cm) val)
    (hnr : noRepeatSat students cm val)
    (p : Student) (a : Workshop) : cntPA rows p a ≤ 1 := by
  have heq := extractRows_rows zm (varList students cm) val cm rows cm' h
  subst heq
  rw [cntPA_rowmap, length_filter_filter]
  by_cases hp : p ∈ students
  · by_cases ha : a ∈ workshopsOf cm
    · refine le_trans (varList_filter_student students cm
        (fun v => decide (val v = 1) && decide (v.1 = p ∧ v.2.1 = a)) p
        (fun v hv => by
          simp only [Bool.and_eq_true, decide_eq_true_eq] at hv
          exact hv.2.1) hnd) ?_
      rw [filter_map_pair (cm.map Prod.fst) p
        (fun v => decide (val v = 1) && decide (v.1 = p ∧ v.2.1 = a)),
        List.length_map]
      refine le_trans (length_filter_mono _ _
        (fun k => decide (k.1 = a) && decide (val (p, k) = 1)) ?_) ?_
      · intro k _ hk
        simp only [Bool.and_eq_true, decide_eq_true_eq] at hk ⊢
        exact ⟨hk.2.2, hk.1⟩
      · rw [← length_filter_filter]
        have hbin : ∀ k ∈ (cm.map Prod.fst).filter
            (fun k => decide (k.1 = a)), val (p, k) = 0 ∨ val (p, k) = 1 :=
          fun k hk => hb (p, k)
            (varList_mem students cm p k hp (List.mem_filter.mp hk).1)
        have hse := sum_eq_filter_length
          ((cm.map Prod.fst).filter (fun k => decide (k.1 = a)))
          (fun k => val (p, k)) hbin
        dsimp only at hse
        have hsum := hnr p hp a ha
        omega
    · have hz : (varList students cm).filter
          (fun v => decide (val v = 1) && decide (v.1 = p ∧ v.2.1 = a))
          = [] := by
        apply List.filter_eq_nil_iff.mpr
        intro v hv
        simp only [Bool.and_eq_true, decide_eq_true_eq]
        rintro ⟨-, -, h3⟩
        apply ha
        unfold workshopsOf
        rw [mem_sortedUnique]
        have h2 := (varList_fst students cm v hv).2
        obtain ⟨e, he, hek⟩ := List.mem_map.mp h2
        exact List.mem_map.mpr ⟨e, he, by rw [← h3, ← hek]⟩
      rw [hz]
      simp
  · have hz : (varList students cm).filter
        (fun v => decide (val v = 1) && decide (v.1 = p ∧ v.2.1 = a))
        = [] := by
      apply List.filter_eq_nil_iff.mpr
      intro v hv
      simp only [Bool.and_eq_true, decide_eq_true_eq]
      rintro ⟨-, h2, -⟩
      exact hp (h2 ▸ (varList_fst students cm v hv).1)
    rw [hz]
    simp

theorem buildProblem_eq (students : List Student)
    (zm : List (Workshop × Zone)) (cost : CostMap) (cm : CapMap)
    (fm : FullMap) (days : List Day) (prob : Problem)
    (h : buildProblem students zm cost cm fm days = some prob) :
    prob.students = students ∧ prob.capEntries = cm := by
  unfold buildProblem at h
  cases hz : buildZoneCs students zm cost cm fm with
  | none => rw [hz] at h; exact absurd h (by simp)
  | some zcs =>
    rw [hz] at h
    dsimp only at h
    rw [← Option.some_inj.mp h]
    exact ⟨rfl, rfl⟩

theorem mainAll_not_forced (inp : MainInput) (s0 : Student)
    (h : s0 ∈ mainAllStudents inp) : s0 ∉ inp.preAssign.map Prod.fst := by
  unfold mainAllStudents at h
  have h2 := (List.mem_filter.mp h).2
  rw [decide_eq_true_eq] at h2
  intro hmem
  exact h2 (by simpa using hmem)

theorem midlate_not_forced (inp : MainInput) (s0 : Student)
    (h : s0 ∈ mainMid inp ++ mainLate inp) :
    s0 ∉ inp.preAssign.map Prod.fst := by
  rcases List.mem_append.mp h with hm | hm
  · exact mainAll_not_forced inp s0 (List.mem_filter.mp hm).1
  · exact mainAll_not_forced inp s0 (List.mem_filter.mp hm).1

theorem cntPA_pos (rows : List Row) (p : Student) (a : Workshop)
    (h : 0 < cntPA rows p a) : ∃ r ∈ rows, r.student = p := by
  unfold cntPA at h
  rw [List.length_pos] at h
  obtain ⟨r, hr⟩ := List.exists_mem_of_ne_nil _ h
  have h2 := List.mem_filter.mp hr
  rw [decide_eq_true_eq] at h2
  exact ⟨r, h2.1, h2.2.1⟩

/-- Claim C2: for every (workshop, day, session) slot, the manual-override
rows plus the exact-solver cohort's rows plus the greedy cohort's rows of a
completed run never exceed the slot's declared aggregated capacity — under
the data-model preconditions that the aggregated schedule lists each slot
once, no fixed-slot list repeats a slot, the overrides fit within declared
capacity, and the value assignment the external solver hands back for the
exact cohort satisfies the built program's constraints. -/
theorem capacity_invariant (solver : Problem → SolveResult) (inp : MainInput)
    (rows : List Row)
    (h : mainRun solver inp = some rows)
    (hgnd : (inp.grp.map grpKey).Nodup)
    (hpnd : ∀ p ∈ inp.preAssign, p.2.Nodup)
    (hover : ∀ k cap, declaredCap inp.grp k = some cap →
      (preCount inp.preAssign k : Int) ≤ cap)
    (hfeas : ∀ prob, buildProblem (mainEarly inp) (build_zone_map inp.prefs)
        (build_costs inp.prefs) (buildCapFull inp.grp inp.preAssign).1
        (buildCapFull inp.grp inp.preAssign).2 (mainDays inp) = some prob →
      FeasibleSolution prob ((solver prob).val)) :
    ∀ k cap, declaredCap inp.grp k = some cap → (cnt rows k : Int) ≤ cap := by
  intro k cap hdecl
  obtain ⟨manual, r1, cm1, r2, cm2, hman, h1, h2, hrows⟩ :=
    mainRun_eq solver inp rows h
  have hov := hover k cap hdecl
  have hcap0 : capAt (buildCapFull inp.grp inp.preAssign).1 k
      = cap - (preCount inp.preAssign k : Int) :=
    buildCapFull_capAt _ _ hgnd k cap hdecl
  have hmc : cnt manual k = preCount inp.preAssign k :=
    manual_cnt _ _ _ hman hpnd k
  have hkmem : k ∈ (buildCapFull inp.grp inp.preAssign).1.map Prod.fst := by
    rw [buildCapFull_keys]
    unfold declaredCap at hdecl
    obtain ⟨r, hr, hrk⟩ := List.mem_map.mp (alookup_mem hdecl)
    exact List.mem_map.mpr ⟨r, hr, congrArg Prod.fst hrk⟩
  have hex : (cnt r1 k : Int)
        ≤ capAt (buildCapFull inp.grp inp.preAssign).1 k
      ∧ capAt cm1 k = capAt (buildCapFull inp.grp inp.preAssign).1 k
          - (cnt r1 k : Int) := by
    rcases solve_group_exact_eq _ _ _ _ _ _ _ _ _ h1 with
      ⟨hse, hr1, hcm1⟩ | ⟨prob, hpb, hxr⟩
    · subst hr1
      subst hcm1
      constructor
      · rw [cnt_nil, hcap0]
        omega
      · rw [cnt_nil]
        simp
    · have hfs := hfeas prob hpb
      obtain ⟨hps, hpc⟩ := buildProblem_eq _ _ _ _ _ _ _ hpb
      have hvars : ∀ v ∈ varList (mainEarly inp)
          (buildCapFull inp.grp inp.preAssign).1,
          v.2 ∈ (buildCapFull inp.grp inp.preAssign).1.map Prod.fst :=
        fun v hv => (varList_fst _ _ v hv).2
      obtain ⟨hkeys1, hcap1⟩ := extractRows_cap _ _ _ _ _ _ hvars hxr
      refine ⟨?_, hcap1 k⟩
      have heq := extractRows_rows _ _ _ _ _ _ hxr
      have hcnt := extract_cnt (build_zone_map inp.prefs) (mainEarly inp)
        (buildCapFull inp.grp inp.preAssign).1 ((solver prob).val) k
        (buildCapFull_keys_nodup _ _)
      rw [← heq] at hcnt
      have hcong : (mainEarly inp).filter
          (fun s => decide ((solver prob).val (s, k) = 1
            ∧ k ∈ (buildCapFull inp.grp inp.preAssign).1.map Prod.fst))
          = (mainEarly inp).filter
            (fun s => decide ((solver prob).val (s, k) = 1)) :=
        List.filter_congr (fun s _ => by simp [hkmem])
      rw [hcong] at hcnt
      obtain ⟨hbin, _, hcs, _, _⟩ := hfs
      rw [hps, hpc] at hbin hcs
      have hks : (alookup (buildCapFull inp.grp inp.preAssign).1 k).isSome :=
        (alookup_isSome_iff _ _).mpr hkmem
      obtain ⟨v, hv⟩ := Option.isSome_iff_exists.mp hks
      have hcse := hcs (k, v) (alookup_mem hv)
      dsimp only at hcse
      have hcv : capAt (buildCapFull inp.grp inp.preAssign).1 k = v := by
        unfold capAt
        rw [hv]
        rfl
      have hbin2 : ∀ s ∈ mainEarly inp, (solver prob).val (s, k) = 0
          ∨ (solver prob).val (s, k) = 1 :=
        fun s hs => hbin (s, k) (varList_mem _ _ s k hs hkmem)
      have hsum := sum_eq_filter_length (mainEarly inp)
        (fun s => (solver prob).val (s, k)) hbin2
      dsimp only at hsum
      omega
  rw [solve_group_late_eq] at h2
  obtain ⟨hkeys2, hcap2⟩ := greedy_assign_cap _ _ _ _ _ _ _ _ h2
  obtain ⟨e2, d2⟩ := hcap2 k
  obtain ⟨hex1, hex2⟩ := hex
  rw [hrows, cnt_append, cnt_append]
  push_cast
  push_cast at hex1 hex2 e2 d2
  omega

/-- Claim C3: for every participant and every activity, the final output
table — manual-override rows, exact-solver rows and greedy rows combined —
contains at most one assignment of that participant to that activity, even
across different days and sessions; under the data-model preconditions that
each participant is forced at most once, no fixed-slot list names the same
workshop twice, the cohort cutoffs are ordered, and the solver's values for
the exact cohort satisfy the built program's constraints. -/
theorem no_repeat_invariant (solver : Problem → SolveResult) (inp : MainInput)
    (rows : List Row)
    (h : mainRun solver inp = some rows)
    (hpk : (inp.preAssign.map Prod.fst).Nodup)
    (hpw : ∀ q ∈ inp.preAssign, ((q.2.map Prod.fst : List Workshop)).Nodup)
    (hcuts : inp.earlyCut ≤ inp.midCut)
    (hfeas : ∀ prob, buildProblem (mainEarly inp) (build_zone_map inp.prefs)
        (build_costs inp.prefs) (buildCapFull inp.grp inp.preAssign).1
        (buildCapFull inp.grp inp.preAssign).2 (mainDays inp) = some prob →
      FeasibleSolution prob ((solver prob).val)) :
    ∀ p a, cntPA rows p a ≤ 1 := by
  intro p a
  obtain ⟨manual, r1, cm1, r2, cm2, hman, h1, h2, hrows⟩ :=
    mainRun_eq solver inp rows h
  have F1 : cntPA manual p a ≤ 1 := manual_cntPA _ _ _ hman hpk hpw p a
  have hr1 : cntPA r1 p a ≤ 1 ∧ (∀ r ∈ r1, r.student ∈ mainEarly inp) := by
    rcases solve_group_exact_eq _ _ _ _ _ _ _ _ _ h1 with
      ⟨hse, he1, hcm1⟩ | ⟨prob, hpb, hxr⟩
    · subst he1
      exact ⟨by simp [cntPA], by simp⟩
    · have hfs := hfeas prob hpb
      obtain ⟨hps, hpc⟩ := buildProblem_eq _ _ _ _ _ _ _ hpb
      obtain ⟨hbin, _, _, hnr, _⟩ := hfs
      rw [hps, hpc] at hbin hnr
      exact ⟨exact_cntPA _ _ _ _ _ _ hxr (mainEarly_nodup inp) hbin hnr p a,
        extractRows_students _ _ _ _ _ _ _ hxr⟩
  rw [solve_group_late_eq] at h2
  obtain ⟨hstud2, hpa2⟩ :=
    greedy_assign_norepeat _ _ _ _ _ _ _ _ h2 (mainMidLate_nodup inp)
  have F3 := hpa2 p a
  have hmanS := buildManualRows_students _ _ _ hman
  have D12 : cntPA manual p a = 0 ∨ cntPA r1 p a = 0 := by
    by_cases hm : 0 < cntPA manual p a
    · right
      obtain ⟨r, hr, hrp⟩ := cntPA_pos _ _ _ hm
      have hpA : p ∈ inp.preAssign.map Prod.fst := hrp ▸ hmanS r hr
      apply cntPA_zero
      intro r' hr' hrp'
      exact mainEarly_not_forced inp p (hrp' ▸ hr1.2 r' hr') hpA
    · left
      omega
  have D13 : cntPA manual p a = 0 ∨ cntPA r2 p a = 0 := by
    by_cases hm : 0 < cntPA manual p a
    · right
      obtain ⟨r, hr, hrp⟩ := cntPA_pos _ _ _ hm
      have hpA : p ∈ inp.preAssign.map Prod.fst := hrp ▸ hmanS r hr
      apply cntPA_zero
      intro r' hr' hrp'
      exact midlate_not_forced inp p (hrp' ▸ hstud2 r' hr') hpA
    · left
      omega
  have D23 : cntPA r1 p a = 0 ∨ cntPA r2 p a = 0 := by
    by_cases hm : 0 < cntPA r1 p a
    · right
      obtain ⟨r, hr, hrp⟩ := cntPA_pos _ _ _ hm
      have hpE : p ∈ mainEarly inp := hrp ▸ hr1.2 r hr
      apply cntPA_zero
      intro r' hr' hrp'
      exact early_midlate_disjoint inp p hpE (hrp' ▸ hstud2 r' hr') hcuts
    · left
      omega
  have F2 := hr1.1
  rw [hrows, cntPA_append, cntPA_append]
  omega

/-- Claim C9: a completed run's output table is precisely the concatenation,
in order, of the manual-override block, then the early cohort's exact-solver
block, then the remaining (mid plus late) cohort's greedy block, each block's
rows belonging to the corresponding participant set. -/
theorem output_concatenation_order (solver : Problem → SolveResult)
    (inp : MainInput) (rows : List Row)
    (h : mainRun solver inp = some rows) :
    ∃ manual r1 r2 cm1 cm2,
      rows = manual ++ r1 ++ r2
      ∧ buildManualRows (build_zone_map inp.prefs) inp.preAssign = some manual
      ∧ solve_group solver (mainEarly inp) (build_zone_map inp.prefs)
          (build_costs inp.prefs) (buildCapFull inp.grp inp.preAssign).1
          (buildCapFull inp.grp inp.preAssign).2 (mainDays inp) false
          = some (r1, cm1)
      ∧ greedy_assign (mainMid inp ++ mainLate inp)
          (build_zone_map inp.prefs) (build_costs inp.prefs) cm1
          (buildCapFull inp.grp inp.preAssign).2 (mainDays inp)
          = some (r2, cm2)
      ∧ (∀ r ∈ manual, r.student ∈ inp.preAssign.map Prod.fst)
      ∧ (∀ r ∈ r1, r.student ∈ mainEarly inp)
      ∧ (∀ r ∈ r2, r.student ∈ mainMid inp ++ mainLate inp) := by
  obtain ⟨manual, r1, cm1, r2, cm2, hman, h1, h2, hrows⟩ :=
    mainRun_eq solver inp rows h
  rw [solve_group_late_eq] at h2
  refine ⟨manual, r1, r2, cm1, cm2, hrows, hman, h1, h2,
    buildManualRows_students _ _ _ hman, ?_,
    (greedy_assign_norepeat _ _ _ _ _ _ _ _ h2 (mainMidLate_nodup inp)).1⟩
  rcases solve_group_exact_eq _ _ _ _ _ _ _ _ _ h1 with
    ⟨hse, he1, hcm1⟩ | ⟨prob, hpb, hxr⟩
  · subst he1
    simp
  · exact extractRows_students _ _ _ _ _ _ _ hxr

/-! ### A well-formed witness run (claims C2, C3 and C9)

One full-day workshop with capacity 2, one override seat, one
preference-submitting early student picked up by the exact solver; the mid
and late cohorts are empty. -/

def grpF : List GrpRow := [⟨"d", "A", 0, true, 2⟩]

def prefsF : List PrefRow := [⟨"s1", "A", "Z", 1, 10⟩]

/-- A solver oracle returning the optimal assignment of the witness run. -/
def oracleF : Problem → SolveResult :=
  fun _ =>
    ⟨SolverStatus.optimal,
     fun v => if v = ("s1", ("A", "d", 0)) then 1 else 0⟩

def inpF : MainInput := ⟨grpF, prefsF, [("m1", [("A", "d", 0)])], 50, 60⟩

def rowsF : List Row :=
  [⟨"m1", "Z", "d", 0, "A"⟩, ⟨"s1", "Z", "d", 0, "A"⟩]

def zcsF : List ZoneC :=
  [⟨"s1", "Z", [], [("s1", ("A", "d", 0))], [], [], [], [], 1⟩]

theorem buildProblem_inpF :
    buildProblem (mainEarly inpF) (build_zone_map inpF.prefs)
        (build_costs inpF.prefs) (buildCapFull inpF.grp inpF.preAssign).1
        (buildCapFull inpF.grp inpF.preAssign).2 (mainDays inpF)
      = some
        { students := mainEarly inpF
          capEntries := (buildCapFull inpF.grp inpF.preAssign).1
          fullFM := (buildCapFull inpF.grp inpF.preAssign).2
          days := mainDays inpF
          zoneCs := zcsF
          objective := objectiveOf (build_costs inpF.prefs) (mainEarly inpF)
            (buildCapFull inpF.grp inpF.preAssign).1 } := by
  unfold buildProblem
  rw [show buildZoneCs (mainEarly inpF) (build_zone_map inpF.prefs)
      (build_costs inpF.prefs) (buildCapFull inpF.grp inpF.preAssign).1
      (buildCapFull inpF.grp inpF.preAssign).2 = some zcsF from by decide]

/-- The oracle's values satisfy every constraint of the witness program. -/
theorem feasF : ∀ prob, buildProblem (mainEarly inpF)
    (build_zone_map inpF.prefs) (build_costs inpF.prefs)
    (buildCapFull inpF.grp inpF.preAssign).1
    (buildCapFull inpF.grp inpF.preAssign).2 (mainDays inpF) = some prob →
    FeasibleSolution prob ((oracleF prob).val) := by
  intro prob hp
  rw [buildProblem_inpF, Option.some_inj] at hp
  subst hp
  decide

/-- The witness overrides stay within declared capacity. -/
theorem hoverF : ∀ k cap, declaredCap inpF.grp k = some cap →
    (preCount inpF.preAssign k : Int) ≤ cap := by
  intro k cap hd
  have he : declaredCap inpF.grp k
      = alookup [((("A" : String), ("d" : String), (0 : Nat)), (2 : Int))] k :=
    rfl
  rw [he] at hd
  simp only [alookup] at hd
  by_cases h1 : (("A" : String), ("d" : String), (0 : Nat)) = k
  · rw [if_pos h1] at hd
    rw [Option.some_inj] at hd
    subst hd
    subst h1
    decide
  · rw [if_neg h1] at hd
    exact absurd hd (by simp)

theorem capacity_invariant_witness :
    mainRun oracleF inpF = some rowsF
      ∧ (cnt rowsF ("A", "d", 0) : Int) ≤ 2 :=
  ⟨by decide,
   capacity_invariant oracleF inpF rowsF (by decide) (by decide) (by decide)
     hoverF feasF ("A", "d", 0) 2 (by decide)⟩

theorem no_repeat_invariant_witness :
    mainRun oracleF inpF = some rowsF ∧ cntPA rowsF "s1" "A" ≤ 1 :=
  ⟨by decide,
   no_repeat_invariant oracleF inpF rowsF (by decide) (by decide) (by decide)
     (by decide) feasF "s1" "A"⟩

theorem output_concatenation_order_witness :
    ∃ manual r1 r2 cm1 cm2,
      rowsF = manual ++ r1 ++ r2
      ∧ buildManualRows (build_zone_map inpF.prefs) inpF.preAssign
          = some manual
      ∧ solve_group oracleF (mainEarly inpF) (build_zone_map inpF.prefs)
          (build_costs inpF.prefs) (buildCapFull inpF.grp inpF.preAssign).1
          (buildCapFull inpF.grp inpF.preAssign).2 (mainDays inpF) false
          = some (r1, cm1)
      ∧ greedy_assign (mainMid inpF ++ mainLate inpF)
          (build_zone_map inpF.prefs) (build_costs inpF.prefs) cm1
          (buildCapFull inpF.grp inpF.preAssign).2 (mainDays inpF)
          = some (r2, cm2)
      ∧ (∀ r ∈ manual, r.student ∈ inpF.preAssign.map Prod.fst)
      ∧ (∀ r ∈ r1, r.student ∈ mainEarly inpF)
      ∧ (∀ r ∈ r2, r.student ∈ mainMid inpF ++ mainLate inpF) :=
  output_concatenation_order oracleF inpF rowsF (by decide)
